import Mathlib

/-!
Verification of the t-chat core: a shallow embedding, in Lean, of the
cryptographic identity service (`services/cryptoService.ts`), the chat
reconciliation logic (`components/ChatView.tsx`), the persistence layer
(`services/dbService.ts`) and the handshake routine of `hooks/useWebRTC.ts`,
together with proofs and refutations of the specified properties.

Modelling conventions:
* bytes are `Nat`s, well-formed when `< 256`; 32-bit words are `Nat`s reduced
  explicitly `% 2 ^ 32`;
* platform primitives that live outside the repository (Web Crypto, `btoa`,
  `JSON`) are given executable models whose doc comments start with
  `Modelled from the spec:`; everything else is translated directly from the
  TypeScript source;
* asynchronous functions are embedded as pure functions; a thrown exception or
  rejected promise becomes `none` / a dedicated failure constructor; sources of
  randomness (fresh ids, IVs, `Date.now()`) become explicit arguments.
-/

namespace TChat

/-! ## Bytes and 32-bit words -/

/-- A well-formed byte list: every entry is an octet. -/
def isByteList (l : List Nat) : Prop := ∀ b ∈ l, b < 256

/-- Reduce to a 32-bit word. -/
def w32 (n : Nat) : Nat := n % 4294967296

/-- Right rotation of a 32-bit word by `n` places. -/
def rotr32 (x n : Nat) : Nat := w32 (x / 2 ^ n + x % 2 ^ n * 2 ^ (32 - n))

/-- Logical right shift. -/
def shr32 (x n : Nat) : Nat := x / 2 ^ n

/-- Bitwise complement within 32 bits. -/
def not32 (x : Nat) : Nat := 4294967295 ^^^ x

/-! ## SHA-256

`cryptoService.ts` calls `window.crypto.subtle.digest('SHA-256', data)`.
The digest itself is a platform primitive, so it is reproduced here in full
(RFC 6234) rather than stubbed: the id-derivation theorems below are about the
actual hash the code computes. -/

def bsig0 (x : Nat) : Nat := rotr32 x 2 ^^^ rotr32 x 13 ^^^ rotr32 x 22

def bsig1 (x : Nat) : Nat := rotr32 x 6 ^^^ rotr32 x 11 ^^^ rotr32 x 25

def ssig0 (x : Nat) : Nat := rotr32 x 7 ^^^ rotr32 x 18 ^^^ shr32 x 3

def ssig1 (x : Nat) : Nat := rotr32 x 17 ^^^ rotr32 x 19 ^^^ shr32 x 10

def chF (x y z : Nat) : Nat := (x &&& y) ^^^ (not32 x &&& z)

def majF (x y z : Nat) : Nat := (x &&& y) ^^^ (x &&& z) ^^^ (y &&& z)

def sha256K : List Nat :=
  [1116352408, 1899447441, 3049323471, 3921009573, 961987163, 1508970993,
   2453635748, 2870763221, 3624381080, 310598401, 607225278, 1426881987,
   1925078388, 2162078206, 2614888103, 3248222580, 3835390401, 4022224774,
   264347078, 604807628, 770255983, 1249150122, 1555081692, 1996064986,
   2554220882, 2821834349, 2952996808, 3210313671, 3336571891, 3584528711,
   113926993, 338241895, 666307205, 773529912, 1294757372, 1396182291,
   1695183700, 1986661051, 2177026350, 2456956037, 2730485921, 2820302411,
   3259730800, 3345764771, 3516065817, 3600352804, 4094571909, 275423344,
   430227734, 506948616, 659060556, 883997877, 958139571, 1322822218,
   1537002063, 1747873779, 1955562222, 2024104815, 2227730452, 2361852424,
   2428436474, 2756734187, 3204031479, 3329325298]

/-- The eight working variables of the compression function. -/
structure Sha256State where
  a : Nat
  b : Nat
  c : Nat
  d : Nat
  e : Nat
  f : Nat
  g : Nat
  h : Nat

def sha256Init : Sha256State :=
  ⟨1779033703, 3144134277, 1013904242, 2773480762,
   1359893119, 2600822924, 528734635, 1541459225⟩

/-- Merkle–Damgård padding: append `0x80`, zeros, and the 64-bit big-endian
bit length, reaching a multiple of 64 bytes. -/
def sha256Pad (msg : List Nat) : List Nat :=
  let z := (64 - (msg.length + 9) % 64) % 64
  msg ++ [0x80] ++ List.replicate z 0 ++
    (List.range 8).map (fun i => msg.length * 8 / 256 ^ (7 - i) % 256)

/-- Big-endian 32-bit words from a byte list. -/
def toWords : List Nat → List Nat
  | b1 :: b2 :: b3 :: b4 :: rest =>
    (((b1 * 256 + b2) * 256 + b3) * 256 + b4) :: toWords rest
  | _ => []

/-- Extend the 16 block words to the 64-entry message schedule. -/
def sha256Schedule (ws : List Nat) : List Nat :=
  (List.range 48).foldl
    (fun w _ =>
      w ++ [w32 (ssig1 (w.getD (w.length - 2) 0) + w.getD (w.length - 7) 0 +
        ssig0 (w.getD (w.length - 15) 0) + w.getD (w.length - 16) 0)])
    ws

/-- One compression step over a 64-byte block. -/
def sha256Compress (s : Sha256State) (block : List Nat) : Sha256State :=
  let w := sha256Schedule (toWords block)
  let t := (sha256K.zip w).foldl
    (fun st kw =>
      let t1 := w32 (st.h + bsig1 st.e + chF st.e st.f st.g + kw.1 + kw.2)
      let t2 := w32 (bsig0 st.a + majF st.a st.b st.c)
      ⟨w32 (t1 + t2), st.a, st.b, st.c, w32 (st.d + t1), st.e, st.f, st.g⟩)
    s
  ⟨w32 (s.a + t.a), w32 (s.b + t.b), w32 (s.c + t.c), w32 (s.d + t.d),
   w32 (s.e + t.e), w32 (s.f + t.f), w32 (s.g + t.g), w32 (s.h + t.h)⟩

/-- Split a byte list into 64-byte blocks; `fuel` bounds the recursion depth so
that the definition is structural and evaluates inside the kernel. -/
def chunksOf64Aux : Nat → List Nat → List (List Nat)
  | 0, _ => []
  | _, [] => []
  | fuel + 1, b :: rest =>
    (b :: rest).take 64 :: chunksOf64Aux fuel ((b :: rest).drop 64)

/-- Split a byte list into 64-byte blocks. -/
def chunksOf64 (l : List Nat) : List (List Nat) := chunksOf64Aux l.length l

/-- Big-endian bytes of a 32-bit word. -/
def wordBytes (w : Nat) : List Nat :=
  [w / 16777216 % 256, w / 65536 % 256, w / 256 % 256, w % 256]

/-- SHA-256 of a byte list, as 32 bytes. -/
def sha256 (msg : List Nat) : List Nat :=
  let s := (chunksOf64 (sha256Pad msg)).foldl sha256Compress sha256Init
  [s.a, s.b, s.c, s.d, s.e, s.f, s.g, s.h].flatMap wordBytes

/-! ## Hexadecimal rendering

`generateUserIdFromPublicKey` renders each hash byte with
`b.toString(16).padStart(2, '0')`; for an octet this is exactly the two hex
digits of `b / 16` and `b % 16`. -/

def hexDigitChar (n : Nat) : Char := ("0123456789abcdef").data.getD n '0'

/-- `b.toString(16).padStart(2, '0')` for an octet `b`. -/
def byteToHexChars (b : Nat) : List Char := [hexDigitChar (b / 16), hexDigitChar (b % 16)]

/-! ## Base64 (`btoa` / `atob`)

`btoa` and `atob` are platform built-ins; they are reproduced here in full
over octet lists (RFC 4648 with canonical padding). The TypeScript code only
ever composes them as `btoa(String.fromCharCode(...bytes))` and
`Uint8Array.from(atob(s), c => c.charCodeAt(0))`, which at the byte level is
exactly `b64EncodeList` / `b64DecodeList`. -/

def b64Alphabet : List Char :=
  ("ABCDEFGHIJKLMNOPQRSTUVWXYZabcdefghijklmnopqrstuvwxyz0123456789+/").data

def b64Char (n : Nat) : Char := b64Alphabet.getD n 'A'

def b64Val (c : Char) : Option Nat := b64Alphabet.indexOf? c

/-- Base64-encode an octet list. -/
def b64EncodeList : List Nat → List Char
  | [] => []
  | [b1] => [b64Char (b1 / 4), b64Char (b1 % 4 * 16), '=', '=']
  | [b1, b2] => [b64Char (b1 / 4), b64Char (b1 % 4 * 16 + b2 / 16),
      b64Char (b2 % 16 * 4), '=']
  | b1 :: b2 :: b3 :: rest =>
    b64Char (b1 / 4) :: b64Char (b1 % 4 * 16 + b2 / 16) ::
      b64Char (b2 % 16 * 4 + b3 / 64) :: b64Char (b3 % 64) :: b64EncodeList rest

/-- Base64-decode to an octet list; `none` on any malformed or non-canonical
input (a thrown `InvalidCharacterError` in the browser). -/
def b64DecodeList : List Char → Option (List Nat)
  | [] => some []
  | c1 :: c2 :: c3 :: c4 :: rest =>
    match b64Val c1, b64Val c2 with
    | some s1, some s2 =>
      if c3 = '=' then
        if c4 = '=' && rest.isEmpty && s2 % 16 == 0 then some [s1 * 4 + s2 / 16]
        else none
      else
        match b64Val c3 with
        | some s3 =>
          if c4 = '=' then
            if rest.isEmpty && s3 % 4 == 0 then
              some [s1 * 4 + s2 / 16, s2 % 16 * 16 + s3 / 4]
            else none
          else
            match b64Val c4 with
            | some s4 =>
              (b64DecodeList rest).map
                (fun t => (s1 * 4 + s2 / 16) :: (s2 % 16 * 16 + s3 / 4) ::
                  (s3 % 4 * 64 + s4) :: t)
            | none => none
        | none => none
    | _, _ => none
  | _ => none

/-- Modelled from the spec: `btoa` on a JavaScript string — defined when every
code unit is below 256, in which case it base64-encodes those code units;
otherwise the browser throws `InvalidCharacterError` (`none`). -/
def btoaStr (s : String) : Option String :=
  if s.data.all (fun c => c.toNat < 256) then
    some ⟨b64EncodeList (s.data.map Char.toNat)⟩
  else none

/-- Modelled from the spec: `atob`, producing the string whose code units are
the decoded octets. -/
def atobStr (s : String) : Option String :=
  (b64DecodeList s.data).map (fun bs => ⟨bs.map Char.ofNat⟩)

/-! ## UTF-8 (`TextEncoder` / `TextDecoder`)

The platform text codecs, reproduced over Lean `Char`s (Unicode scalar
values, which is also what `TextEncoder` emits — lone surrogates cannot occur
in a Lean `String`). -/

def utf8EncodeChar (c : Char) : List Nat :=
  let n := c.toNat
  if n < 128 then [n]
  else if n < 2048 then [192 + n / 64, 128 + n % 64]
  else if n < 65536 then [224 + n / 4096, 128 + n / 64 % 64, 128 + n % 64]
  else [240 + n / 262144, 128 + n / 4096 % 64, 128 + n / 64 % 64, 128 + n % 64]

/-- `new TextEncoder().encode(s)`. -/
def utf8Encode (s : String) : List Nat := s.data.flatMap utf8EncodeChar

/-- Whether a byte is a UTF-8 continuation byte. -/
def isCont (b : Nat) : Bool := 128 ≤ b && b < 192

/-- Decode one UTF-8 scalar from the front: `some (none, _)` is a cleanly
exhausted input, `some (some c, rest)` one decoded character, `none`
malformed input. -/
def utf8DecodeOne : List Nat → Option (Option Char × List Nat)
  | [] => some (none, [])
  | b1 :: rest =>
    if b1 < 128 then some (some (Char.ofNat b1), rest)
    else if b1 < 192 then none
    else if b1 < 224 then
      match rest with
      | b2 :: rest2 =>
        if isCont b2 then
          some (some (Char.ofNat ((b1 - 192) * 64 + (b2 - 128))), rest2)
        else none
      | [] => none
    else if b1 < 240 then
      match rest with
      | b2 :: b3 :: rest3 =>
        if isCont b2 && isCont b3 then
          some (some (Char.ofNat (((b1 - 224) * 64 + (b2 - 128)) * 64 + (b3 - 128))),
            rest3)
        else none
      | _ => none
    else if b1 < 248 then
      match rest with
      | b2 :: b3 :: b4 :: rest4 =>
        if isCont b2 && isCont b3 && isCont b4 then
          some (some (Char.ofNat ((((b1 - 240) * 64 + (b2 - 128)) * 64 + (b3 - 128)) *
            64 + (b4 - 128))), rest4)
        else none
      | _ => none
    else none

/-- Iterate `utf8DecodeOne`; the fuel only bounds the recursion depth (one
unit per decoded character) so that the definition is structural. -/
def utf8DecodeAux : Nat → List Nat → Option (List Char)
  | 0, _ => none
  | fuel + 1, l =>
    match utf8DecodeOne l with
    | none => none
    | some (none, _) => some []
    | some (some c, rest) => (utf8DecodeAux fuel rest).map (fun cs => c :: cs)

/-- UTF-8 decoding of a byte list; `none` on malformed input (the browser's
`TextDecoder` would substitute replacement characters instead, a difference
that is invisible on the round-trip path proved below). -/
def utf8DecodeList (bs : List Nat) : Option (List Char) :=
  utf8DecodeAux (bs.length + 1) bs

/-- `new TextDecoder().decode(bytes)`, strict variant. -/
def utf8Decode (bs : List Nat) : Option String :=
  (utf8DecodeList bs).map (fun cs => ⟨cs⟩)

/-! ## Identity & Key Service (`services/cryptoService.ts`) -/

/-- Modelled from the spec: a symmetric AES-GCM `CryptoKey` handle, reduced to
its 256-bit key material (octets). -/
structure SymKey where
  material : List Nat
deriving DecidableEq

/-- Modelled from the spec: the P-384 group used for ECDH, replaced by a fixed
cyclic group — exponentiation modulo `ecdhP` on the generator `ecdhG`. A
private key is an exponent; the matching public key is `g ^ priv % p`. The
Diffie–Hellman agreement `pub ^ priv % p` has exactly the commutativity the
claim is about. -/
def ecdhP : Nat := 251

def ecdhG : Nat := 6

/-- The public key belonging to a private exponent (what `generateKeys` pairs
together). -/
def publicOfPrivate (priv : Nat) : Nat := ecdhG ^ priv % ecdhP

/-- Modelled from the spec: the derivation of a 256-bit AES key from the agreed
group element (`subtle.deriveKey` with `AES-GCM, length 256`). -/
def kdf256 (x : Nat) : List Nat := (List.range 32).map (fun i => x / 256 ^ i % 256)

/-- `deriveSharedSecret(myPrivateKey, peerPublicKey)`: ECDH agreement followed
by derivation of a 256-bit AES-GCM key. -/
def deriveSharedSecret (myPrivateKey peerPublicKey : Nat) : SymKey :=
  ⟨kdf256 (peerPublicKey ^ myPrivateKey % ecdhP)⟩

/-- `generateSymmetricKey()`; the platform's fresh randomness becomes the
explicit `entropy` argument. -/
def generateSymmetricKey (entropy : List Nat) : SymKey := ⟨entropy⟩

/-- Modelled from the spec: a symmetric JWK (`kty: "oct"`), reduced to the raw
key octets carried by its `k` member. -/
structure OctJwk where
  k : List Nat
deriving DecidableEq

/-- `exportSymmetricKey(key)`: the JWK form of a symmetric key. -/
def exportSymmetricKey (key : SymKey) : OctJwk := ⟨key.material⟩

/-- `importSymmetricKey(jwk)`. -/
def importSymmetricKey (jwk : OctJwk) : SymKey := ⟨jwk.k⟩

/-! ### AES-GCM

`subtle.encrypt/decrypt` with AES-GCM is a platform primitive. It is modelled
as an ideal authenticated-encryption functionality: the ciphertext is an
injective, self-delimiting framing of (key material, IV, plaintext), and
decryption succeeds exactly on a genuine encryption under the same key and IV
— any other input is rejected, which is the authenticated behaviour the code
relies on. Confidentiality (that the ciphertext hides the plaintext) is a
computational property outside the model's scope; no claim depends on it. -/

/-- Frame a byte list self-delimitingly: `255` in the data is escaped as
`255, 0`, and `255, 1` terminates the frame. -/
def frameList (l : List Nat) : List Nat :=
  l.flatMap (fun b => if b = 255 then [255, 0] else [b]) ++ [255, 1]

/-- Read one framing token: `some (none, rest)` is the terminator,
`some (some b, rest)` an unescaped data byte. -/
def unframeOne : List Nat → Option (Option Nat × List Nat)
  | [] => none
  | b :: rest =>
    if b = 255 then
      match rest with
      | [] => none
      | b2 :: rest2 =>
        if b2 = 0 then some (some 255, rest2)
        else if b2 = 1 then some (none, rest2)
        else none
    else some (some b, rest)

/-- Iterate `unframeOne` up to the terminator (fuel-bounded structural
recursion, one unit per data byte). -/
def unframeAux : Nat → List Nat → Option (List Nat × List Nat)
  | 0, _ => none
  | fuel + 1, l =>
    match unframeOne l with
    | none => none
    | some (none, rest) => some ([], rest)
    | some (some b, rest) => (unframeAux fuel rest).map (fun p => (b :: p.1, p.2))

/-- Read one frame back, returning the data and the remaining input. -/
def unframeList (l : List Nat) : Option (List Nat × List Nat) :=
  unframeAux (l.length + 1) l

/-- Modelled from the spec: `subtle.encrypt({name: 'AES-GCM', iv}, key, pt)`
as the ideal functionality described above. -/
def aesGcmEncrypt (key : SymKey) (iv pt : List Nat) : List Nat :=
  frameList key.material ++ frameList iv ++ frameList pt

/-- Modelled from the spec: `subtle.decrypt`; `none` is the rejected promise
(`DecryptionFailed`) on a wrong key, wrong IV, or any byte string that is not
a genuine encryption. -/
def aesGcmDecrypt (key : SymKey) (iv ct : List Nat) : Option (List Nat) :=
  match unframeList ct with
  | none => none
  | some (km, r1) =>
    match unframeList r1 with
    | none => none
    | some (ivd, r2) =>
      match unframeList r2 with
      | none => none
      | some (pt, r3) =>
        if km = key.material ∧ ivd = iv ∧ r3 = [] then some pt else none

/-- The `{ encryptedContent, iv }` record returned by `encryptTextMessage`. -/
structure EncryptedPayload where
  encryptedContent : String
  iv : String
deriving DecidableEq

/-- `encryptTextMessage(content, sharedSecret)`: UTF-8 encode, AES-GCM
encrypt under a fresh 96-bit IV (here the explicit `iv` argument), and
base64 both the ciphertext and the IV. -/
def encryptTextMessage (content : String) (sharedSecret : SymKey)
    (iv : List Nat) : EncryptedPayload :=
  ⟨⟨b64EncodeList (aesGcmEncrypt sharedSecret iv (utf8Encode content))⟩,
   ⟨b64EncodeList iv⟩⟩

/-- `decryptTextMessage(encryptedContent, ivString, sharedSecret)`: base64
decode both parts, AES-GCM decrypt, UTF-8 decode; any failure is the rejected
promise (`DecryptionFailed`). -/
def decryptTextMessage (encryptedContent ivString : String)
    (sharedSecret : SymKey) : Option String := do
  let ct ← b64DecodeList encryptedContent.data
  let iv ← b64DecodeList ivString.data
  let pt ← aesGcmDecrypt sharedSecret iv ct
  utf8Decode pt

/-! ### User-id derivation -/

/-- The exported EC public-key JWK (`crv`, `kty` and the two coordinate
members; the constant `ext`/`key_ops` members are fixed by the serializer
below). -/
structure EcPublicJwk where
  crv : String
  kty : String
  x : String
  y : String
deriving DecidableEq

/-- One JSON string-escape step (`JSON.stringify` escaping for one character). -/
def jsonEscapeChar (c : Char) : List Char :=
  if c = '"' then ['\\', '"']
  else if c = '\\' then ['\\', '\\']
  else if c = Char.ofNat 8 then ['\\', 'b']
  else if c = Char.ofNat 9 then ['\\', 't']
  else if c = Char.ofNat 10 then ['\\', 'n']
  else if c = Char.ofNat 12 then ['\\', 'f']
  else if c = Char.ofNat 13 then ['\\', 'r']
  else if c.toNat < 32 then
    ['\\', 'u', '0', '0', hexDigitChar (c.toNat / 16), hexDigitChar (c.toNat % 16)]
  else [c]

/-- JSON string-escaping of a character list. -/
def jsonEscape (s : List Char) : List Char := s.flatMap jsonEscapeChar

/-- Modelled from the spec: `JSON.stringify(publicKey)` for an exported EC
public JWK, with the member order the platform produces
(`crv`, `ext`, `key_ops`, `kty`, `x`, `y`). -/
def stringifyEcJwk (key : EcPublicJwk) : String :=
  ⟨("\x7b\"crv\":\"").data ++ jsonEscape key.crv.data ++
   ("\",\"ext\":true,\"key_ops\":[],\"kty\":\"").data ++ jsonEscape key.kty.data ++
   ("\",\"x\":\"").data ++ jsonEscape key.x.data ++
   ("\",\"y\":\"").data ++ jsonEscape key.y.data ++ ("\"\x7d").data⟩

/-- `generateUserIdFromPublicKey(publicKey)`: hex digits of
`SHA-256(JSON.stringify(publicKey))`, joined and truncated with
`.substring(0, 16)`. -/
def generateUserIdFromPublicKey (publicKey : EcPublicJwk) : String :=
  ⟨((sha256 (utf8Encode (stringifyEcJwk publicKey))).flatMap byteToHexChars).take 16⟩

/-- The hex rendering of a byte list, as one string. -/
def hexOfBytes (bs : List Nat) : String := ⟨bs.flatMap byteToHexChars⟩

/-- The spec's formula, written from its words: the id is
`hex(SHA-256(canonical-JSON(publicKey)))[0:16]` — the first sixteen characters
of the hex digest of the serialized public key. -/
def specDeriveId (publicKey : EcPublicJwk) : String :=
  ⟨(hexOfBytes (sha256 (utf8Encode (stringifyEcJwk publicKey)))).data.take 16⟩

/-! ## Data model (`types.ts`) -/

/-- `Chat.type`: `'dm' | 'group'`. -/
inductive ChatType where
  | dm
  | group
deriving DecidableEq

/-- A `TextMessage` (the `type: MessageType.TEXT` discriminant lives in
`AppMessage` below). -/
structure TextMessage where
  id : String
  senderId : String
  recipientId : String
  encryptedContent : String
  iv : String
  timestamp : Nat
deriving DecidableEq

/-- The `AppMessage` union, split by the `type` discriminant; the claims only
distinguish `TEXT` from everything else, so the non-text variants
(`USER_INFO`, `GROUP_KEY`, `MICRO_WORLD_UPDATE`, …) are collapsed. -/
inductive AppMessage where
  | text (m : TextMessage)
  | nonText
deriving DecidableEq

structure ChatMember where
  id : String
  name : String
deriving DecidableEq

/-- A `Chat`. -/
structure Chat where
  id : String
  name : String
  type : ChatType
  messages : List TextMessage
  unreadCount : Nat
  members : List ChatMember
  groupKey : Option SymKey
  groupKeyJwk : Option OctJwk
deriving DecidableEq

/-- `Peer.status`. -/
inductive PeerStatus where
  | connecting
  | connected
  | disconnected
deriving DecidableEq

/-- The `RTCPeerConnection.signalingState` values the handshake logic
distinguishes. -/
inductive SignalingState where
  | stable
  | haveLocalOffer
  | haveRemoteOffer
deriving DecidableEq

/-- `Peer`: the per-peer session. `publicKey` is the peer's ECDH public key in
the group model above; `signalingState` is the underlying
`RTCPeerConnection.signalingState` that `handleAnswer` inspects. -/
structure Peer where
  id : String
  name : String
  publicKey : Nat
  status : PeerStatus
  signalingState : SignalingState
  sharedSecret : Option SymKey
deriving DecidableEq

/-- The local user (`User`), with the modelled key pair. -/
structure UserModel where
  id : String
  name : String
  privateKey : Nat
  publicKey : Nat
deriving DecidableEq

/-! ## The conversation map

`ChatView` keeps `chats : Map<string, Chat>`; modelled as an association list
with `Map.get`/`Map.set` semantics (`set` replaces in place, otherwise
appends in insertion order). -/

abbrev ChatMap : Type := List (String × Chat)

def mget (m : ChatMap) (key : String) : Option Chat :=
  (List.find? (fun e => e.1 = key) m).map (fun e => e.2)

def mset (m : ChatMap) (key : String) (v : Chat) : ChatMap :=
  if List.any m (fun e => e.1 = key) then
    List.map (fun e => if e.1 = key then (key, v) else e) m
  else m ++ [(key, v)]

/-! ## Message ordering -/

/-- The comparator `(a, b) => a.timestamp - b.timestamp` as an order on
messages. -/
def tmLe (a b : TextMessage) : Prop := a.timestamp ≤ b.timestamp

instance : DecidableRel tmLe := fun a b => Nat.decLe a.timestamp b.timestamp

instance : IsTotal TextMessage tmLe := ⟨fun a b => Nat.le_total a.timestamp b.timestamp⟩

instance : IsTrans TextMessage tmLe := ⟨fun _ _ _ => Nat.le_trans⟩

/-- `chat.messages.sort((a, b) => a.timestamp - b.timestamp)`: a stable
ascending sort by timestamp (JavaScript's sort is stable; insertion sort is
its stable executable model). -/
def sortByTimestamp (l : List TextMessage) : List TextMessage :=
  l.insertionSort tmLe

/-! ## `ChatView` handlers -/

/-- The conversation a text message is filed under: the recipient id when it
names a group, else the sender. -/
def targetChatId (senderId : String) (m : TextMessage) : String :=
  if m.recipientId.startsWith ("group-") then m.recipientId else senderId

/-- `handleNewMessage(senderId, message)` — the `receive` operation. Returns
the updated conversation map and the list of `db.saveMessage` calls made.
Non-text messages are ignored; a message whose target conversation is absent
is dropped; a message whose id already occurs in the target conversation is
ignored; otherwise it is pushed, the list re-sorted by timestamp, the unread
count bumped unless the conversation is focused, and the message persisted. -/
def handleNewMessage (activeChatId : Option String) (senderId : String)
    (message : AppMessage) (chats : ChatMap) :
    ChatMap × List (TextMessage × String) :=
  match message with
  | .nonText => (chats, [])
  | .text m =>
    let chatId := targetChatId senderId m
    match mget chats chatId with
    | none => (chats, [])
    | some chat =>
      if chat.messages.any (fun x => x.id = m.id) then (chats, [])
      else
        let chat' : Chat :=
          { chat with
            messages := sortByTimestamp (chat.messages ++ [m]),
            unreadCount :=
              if some chatId ≠ activeChatId then chat.unreadCount + 1
              else chat.unreadCount }
        (mset chats chatId chat', [(m, chatId)])

/-- The key-resolution and encryption step of `sendMessage`: the shared
secret of the peer for a DM (with the early `console.error` returns as
`none`), the group key for a group; yields the encrypted content, the IV
string and the recipient ids. -/
def sendEncrypt (user : UserModel) (peers : List Peer) (chat : Chat)
    (content : String) (iv : List Nat) : Option (String × String × List String) :=
  if chat.type = .dm then
    match List.find? (fun p => p.id = chat.id) peers with
    | none => none
    | some peer =>
      match peer.sharedSecret with
      | none => none
      | some secret =>
        let e := encryptTextMessage content secret iv
        some (e.encryptedContent, e.iv, [peer.id])
  else
    match chat.groupKey with
    | none => none
    | some gk =>
      let e := encryptTextMessage content gk iv
      some (e.encryptedContent, e.iv,
        (chat.members.map (fun mem => mem.id)).filter (fun i => i ≠ user.id))

/-- `sendMessage(content)`. The fresh message id (`crypto.randomUUID()`), the
clock (`Date.now()`) and the fresh IV are explicit arguments. Returns the
updated map, the `db.saveMessage` calls, and the recipient ids handed to
`broadcastMessage`. The new message is pushed without re-sorting. -/
def sendMessage (user : UserModel) (peers : List Peer) (chats : ChatMap)
    (activeChatId : Option String) (content freshId : String) (now : Nat)
    (iv : List Nat) : ChatMap × List (TextMessage × String) × List String :=
  match activeChatId with
  | none => (chats, [], [])
  | some aId =>
    match mget chats aId with
    | none => (chats, [], [])
    | some chat =>
      match sendEncrypt user peers chat content iv with
      | none => (chats, [], [])
      | some (ec, ivs, recipientIds) =>
        let message : TextMessage := ⟨freshId, user.id, chat.id, ec, ivs, now⟩
        (mset chats aId { chat with messages := chat.messages ++ [message] },
         [(message, aId)],
         recipientIds.filter
           (fun i => peers.any (fun p => p.id = i ∧ p.status = .connected)))

/-! ## Persistence (`services/dbService.ts`) -/

/-- The object `saveChat` hands to `store.put`:
`{ ...chat, messages: undefined, groupKey: undefined }` — same shape as
`Chat`, with those two members set to `undefined` (`none`). -/
structure StoredChat where
  id : String
  name : String
  type : ChatType
  messages : Option (List TextMessage)
  unreadCount : Nat
  members : List ChatMember
  groupKey : Option SymKey
  groupKeyJwk : Option OctJwk
deriving DecidableEq

/-- The `storableChat` value built inside `DatabaseService.saveChat`. -/
def storableChat (chat : Chat) : StoredChat :=
  ⟨chat.id, chat.name, chat.type, none, chat.unreadCount, chat.members,
   none, chat.groupKeyJwk⟩

/-! ## Group invite payloads

`generateGroupInviteCode` produces `btoa(JSON.stringify({groupId, groupName,
key}))` and `joinGroup` consumes it with `JSON.parse(atob(code))`.
`JSON.stringify` is modelled by printing exactly that object shape (with
`jsonEscape` for the string members and the serialized `OctJwk` for the key);
`JSON.parse` is modelled by a parser for that same shape — the two agree with
the platform on every string the code produces, which is the domain of the
round-trip claims. -/

/-- The `{groupId, groupName, key}` payload of a group invite. -/
structure GroupInvitePayload where
  groupId : String
  groupName : String
  key : OctJwk
deriving DecidableEq

/-- Serialize the JWK member: key material rendered in base64 alphabet, the
form the platform's `k` member takes. -/
def stringifyOctJwk (jwk : OctJwk) : List Char :=
  ("\x7b\"kty\":\"oct\",\"k\":\"").data ++ b64EncodeList jwk.k ++ ("\"\x7d").data

/-- `JSON.stringify({groupId, groupName, key})`. -/
def stringifyGroupPayload (p : GroupInvitePayload) : String :=
  ⟨("\x7b\"groupId\":\"").data ++ jsonEscape p.groupId.data ++
   ("\",\"groupName\":\"").data ++ jsonEscape p.groupName.data ++
   ("\",\"key\":").data ++ stringifyOctJwk p.key ++ ("\x7d").data⟩

/-- The value of a hexadecimal digit character, either case. -/
def hexCharVal (c : Char) : Option Nat :=
  (("0123456789abcdef").data.indexOf? c).orElse
    (fun _ => ("0123456789ABCDEF").data.indexOf? c)

/-- Scan one token of a JSON string literal body: `some (none, rest)` is the
closing quote, `some (some c, rest)` one (possibly escaped) character. -/
def scanJsonToken : List Char → Option (Option Char × List Char)
  | [] => none
  | c :: rest =>
    if c = '"' then some (none, rest)
    else if c = '\\' then
      match rest with
      | [] => none
      | e :: rest2 =>
        if e = '"' then some (some '"', rest2)
        else if e = '\\' then some (some '\\', rest2)
        else if e = 'b' then some (some (Char.ofNat 8), rest2)
        else if e = 't' then some (some (Char.ofNat 9), rest2)
        else if e = 'n' then some (some (Char.ofNat 10), rest2)
        else if e = 'f' then some (some (Char.ofNat 12), rest2)
        else if e = 'r' then some (some (Char.ofNat 13), rest2)
        else if e = 'u' then
          match rest2 with
          | h1 :: h2 :: h3 :: h4 :: rest3 =>
            match hexCharVal h1, hexCharVal h2, hexCharVal h3, hexCharVal h4 with
            | some v1, some v2, some v3, some v4 =>
              some (some (Char.ofNat (((v1 * 16 + v2) * 16 + v3) * 16 + v4)), rest3)
            | _, _, _, _ => none
          | _ => none
        else none
    else some (some c, rest)

/-- Iterate `scanJsonToken` up to the closing quote (fuel-bounded structural
recursion, one unit per decoded character). -/
def scanJsonAux : Nat → List Char → Option (List Char × List Char)
  | 0, _ => none
  | fuel + 1, l =>
    match scanJsonToken l with
    | none => none
    | some (none, rest) => some ([], rest)
    | some (some c, rest) =>
      (scanJsonAux fuel rest).map (fun p => (c :: p.1, p.2))

/-- Scan a JSON string literal body up to its closing quote, undoing
escapes; returns the decoded characters and the input after the quote. -/
def scanJsonString (l : List Char) : Option (List Char × List Char) :=
  scanJsonAux (l.length + 1) l

/-- Consume an expected literal character sequence. -/
def dropLit : List Char → List Char → Option (List Char)
  | [], s => some s
  | _ :: _, [] => none
  | c :: cs, d :: ds => if c = d then dropLit cs ds else none

/-- `JSON.parse` specialised to the group-invite payload shape, then the
destructuring `const { groupId, groupName, key } = ...` plus the decoding of
the JWK `k` member. -/
def parseGroupPayload (s : String) : Option GroupInvitePayload := do
  let r1 ← dropLit ("\x7b\"groupId\":\"").data s.data
  let (gid, r2) ← scanJsonString r1
  let r3 ← dropLit (",\"groupName\":\"").data r2
  let (gname, r4) ← scanJsonString r3
  let r5a ← dropLit (",\"key\":").data r4
  let r5 ← dropLit ("\x7b\"kty\":\"oct\",\"k\":\"").data r5a
  let (kstr, r6) ← scanJsonString r5
  let r7 ← dropLit ("\x7d\x7d").data r6
  if r7.isEmpty then
    let kbytes ← b64DecodeList kstr
    pure ⟨⟨gid⟩, ⟨gname⟩, ⟨kbytes⟩⟩
  else none

/-- `generateGroupInviteCode(groupId)`; `none` models the thrown
`Error('Invalid group or missing key')` as well as a `btoa` failure on a
payload with non-Latin-1 characters. -/
def generateGroupInviteCode (chats : ChatMap) (groupId : String) : Option String :=
  match mget chats groupId with
  | none => none
  | some chat =>
    if chat.type = .group then
      match chat.groupKeyJwk with
      | none => none
      | some jwk => btoaStr (stringifyGroupPayload ⟨chat.id, chat.name, jwk⟩)
    else none

/-! ## Application state and transitions

The pieces of `ChatView` state the claims quantify over, with the
`db.saveChat` / `db.saveMessage` calls recorded as logs. The unread-clearing
`useEffect` runs whenever `activeChatId` changes, so every transition that
sets `activeChatId` is composed with it. -/

structure AppState where
  chats : ChatMap
  activeChatId : Option String
  savedChats : List StoredChat
  savedMessages : List (TextMessage × String)
deriving DecidableEq

def initialState : AppState := ⟨[], none, [], []⟩

/-- The `useEffect` on `[activeChatId]`: clear the focused conversation's
unread count and persist the cleared record (when it was non-zero). -/
def applyClearEffect (st : AppState) : AppState :=
  match st.activeChatId with
  | none => st
  | some cid =>
    match mget st.chats cid with
    | none => st
    | some chat =>
      if chat.unreadCount > 0 then
        let chat' := { chat with unreadCount := 0 }
        { st with
          chats := mset st.chats cid chat',
          savedChats := st.savedChats ++ [storableChat chat'] }
      else st

/-- `setActiveChatId(cid)` together with the clearing effect; the effect has
`[activeChatId]` as its dependency list, so it re-runs only when the focus
actually changes. -/
def setActiveChat (cid : String) (st : AppState) : AppState :=
  if st.activeChatId = some cid then st
  else applyClearEffect { st with activeChatId := some cid }

/-- `selectChat(peerOrChatId, name)`: create the direct conversation on first
contact with a known peer, persist it, and focus it. -/
def selectChat (user : UserModel) (peers : List Peer) (peerOrChatId : String)
    (st : AppState) : AppState :=
  let chatId := peerOrChatId
  let st' :=
    match mget st.chats chatId, List.find? (fun p => p.id = peerOrChatId) peers with
    | none, some peer =>
      let newChat : Chat :=
        ⟨peer.id, peer.name, .dm, [], 0,
         [⟨user.id, user.name⟩, ⟨peer.id, peer.name⟩], none, none⟩
      { st with
        chats := mset st.chats chatId newChat,
        savedChats := st.savedChats ++ [storableChat newChat] }
    | _, _ => st
  setActiveChat chatId st'

/-- `createGroup(name)`; the fresh uuid and the key-generation entropy are
explicit arguments. -/
def createGroup (user : UserModel) (name uuid : String) (entropy : List Nat)
    (st : AppState) : AppState :=
  let groupId := ("group-") ++ uuid
  let groupKey := generateSymmetricKey entropy
  let groupKeyJwk := exportSymmetricKey groupKey
  let newGroup : Chat :=
    ⟨groupId, name, .group, [], 0, [⟨user.id, user.name⟩],
     some groupKey, some groupKeyJwk⟩
  setActiveChat groupId
    { st with
      chats := mset st.chats groupId newGroup,
      savedChats := st.savedChats ++ [storableChat newGroup] }

/-- `joinGroup(inviteCode)`: decode and parse the payload (any failure is the
caught exception — state untouched), re-select a known group, otherwise import
the key, create the local group conversation, persist and focus it. -/
def joinGroup (user : UserModel) (inviteCode : String) (st : AppState) : AppState :=
  match (atobStr inviteCode).bind parseGroupPayload with
  | none => st
  | some p =>
    if (mget st.chats p.groupId).isSome then setActiveChat p.groupId st
    else
      let groupKey := importSymmetricKey p.key
      let newGroup : Chat :=
        ⟨p.groupId, p.groupName, .group, [], 0, [⟨user.id, user.name⟩],
         some groupKey, some p.key⟩
      setActiveChat p.groupId
        { st with
          chats := mset st.chats p.groupId newGroup,
          savedChats := st.savedChats ++ [storableChat newGroup] }

/-- The user-driven operations of `ChatView`, with every source of
nondeterminism (fresh ids, clock, entropy) made explicit. -/
inductive Action where
  | receive (senderId : String) (message : AppMessage)
  | select (peerOrChatId : String)
  | send (content freshId : String) (now : Nat) (iv : List Nat)
  | newGroup (name uuid : String) (entropy : List Nat)
  | join (inviteCode : String)

def applyAction (user : UserModel) (peers : List Peer) (st : AppState) :
    Action → AppState
  | .receive senderId message =>
    let r := handleNewMessage st.activeChatId senderId message st.chats
    { st with chats := r.1, savedMessages := st.savedMessages ++ r.2 }
  | .select peerOrChatId => selectChat user peers peerOrChatId st
  | .send content freshId now iv =>
    let r := sendMessage user peers st.chats st.activeChatId content freshId now iv
    { st with chats := r.1, savedMessages := st.savedMessages ++ r.2.1 }
  | .newGroup name uuid entropy => createGroup user name uuid entropy st
  | .join inviteCode => joinGroup user inviteCode st

def runActions (user : UserModel) (peers : List Peer) (acts : List Action)
    (st : AppState) : AppState :=
  acts.foldl (applyAction user peers) st

/-- A state reachable from the empty initial state by some action sequence. -/
def ReachableState (user : UserModel) (peers : List Peer) (st : AppState) : Prop :=
  ∃ acts : List Action, st = runActions user peers acts initialState

/-! ## Connection establishment (`hooks/useWebRTC.ts`)

The WebRTC transport is external; what the claims are about is the routing
and state bookkeeping of `handleOffer` / `handleAnswer`. The transport model
keeps exactly what those functions observe: an sdp description is an offer or
an answer, `setRemoteDescription` on a fresh connection succeeds only for an
offer, and on a connection in `have-local-offer` state only for an answer
(otherwise it throws). -/

inductive SdpType where
  | offer
  | answer
deriving DecidableEq

/-- The decoded `{ sdp, sender }` payload of an invite or answer code. -/
structure HandshakePayload where
  sdpType : SdpType
  senderId : String
  senderName : String
  senderPublicKey : Nat
deriving DecidableEq

/-- What `handleOffer(offerCode)` does after `JSON.parse(atob(code))`
(`none` as the argument models a payload that fails to decode — the parse
throws). `Except.error ()` is a thrown exception; `Except.ok none` is the
early `return` with a warning for an already-known sender; `Except.ok (some
(answer, peers'))` returns the answer payload (resolved once candidate
gathering completes) and the updated peer list. -/
def handleOffer (user : UserModel) (peers : List Peer)
    (payload : Option HandshakePayload) :
    Except Unit (Option (HandshakePayload × List Peer)) :=
  match payload with
  | none => .error ()
  | some p =>
    if peers.any (fun q => q.id = p.senderId) then .ok none
    else if p.sdpType = .offer then
      let peer : Peer :=
        ⟨p.senderId, p.senderName, p.senderPublicKey, .connecting, .stable,
         some (deriveSharedSecret user.privateKey p.senderPublicKey)⟩
      .ok (some
        (⟨.answer, user.id, user.name, user.publicKey⟩,
         (peers.filter (fun q => q.id ≠ peer.id)) ++ [peer]))
    else .error ()

/-- The observable outcomes of `handleAnswer`. -/
inductive HandshakeOutcome where
  | answered (peers' : List Peer)
  | answerProduced (answer : HandshakePayload) (peers' : List Peer)
  | ignored
  | failed
deriving DecidableEq

/-- `handleAnswer(answerCode)` — `completeHandshake`. The payload argument is
the decoded code (`none` when `JSON.parse(atob(code))` would throw). The
body follows the source: look for a connection in `have-local-offer` state;
with none, fall through to `handleOffer` (surfacing a produced answer code
via `alert`); with one, apply the payload as a remote answer, derive the
shared secret and rewrite the temporary peer id to the sender's — and on any
thrown error retry as an offer, failing only when that also returns nothing
(`throw new Error('Invalid answer/offer code')`) or itself throws. -/
def handleAnswer (user : UserModel) (peers : List Peer)
    (payload : Option HandshakePayload) : HandshakeOutcome :=
  match payload with
  | none => .failed
  | some p =>
    match List.find? (fun q => q.signalingState = .haveLocalOffer) peers with
    | none =>
      match handleOffer user peers (some p) with
      | .error _ => .failed
      | .ok none => .ignored
      | .ok (some (answer, peers')) => .answerProduced answer peers'
    | some pendingPeer =>
      if p.sdpType = .answer then
        let peers' :=
          (peers.map (fun q =>
            if q.id = pendingPeer.id then
              { q with
                id := p.senderId,
                name := p.senderName,
                publicKey := p.senderPublicKey,
                sharedSecret :=
                  some (deriveSharedSecret user.privateKey p.senderPublicKey) }
            else q)).filter
            (fun q => q.id ≠ pendingPeer.id ∨ q.id = p.senderId)
        .answered peers'
      else
        match handleOffer user peers (some p) with
        | .error _ => .failed
        | .ok none => .failed
        | .ok (some (answer, peers')) => .answerProduced answer peers'

/-! ## Auxiliary definitions for the statements below -/

/-- The number of messages stored in a conversation. -/
def messageCount (chats : ChatMap) (chatId : String) : Nat :=
  ((mget chats chatId).map (fun c => c.messages.length)).getD 0

/-- The focused conversation always has a zero unread count — the provable
direction of the unread invariant. -/
def FocusInvariant (st : AppState) : Prop :=
  ∀ cid chat, st.activeChatId = some cid → mget st.chats cid = some chat →
    chat.unreadCount = 0

/-- The value of a hex-digit character, clamped below 16 (proof machinery for
the id-space counting argument). -/
def hexValClamp (c : Char) : Nat :=
  min (List.findIdx (fun d => d = c) (("0123456789abcdef").data)) 15

/-- The number read from a hex string (proof machinery: an injection of
16-hex-digit ids into `Fin (16 ^ 16)`). -/
def idVal (s : String) : Nat :=
  s.data.foldl (fun a c => a * 16 + hexValClamp c) 0

/-- Pads a `Nat` into a distinct public-key JWK (proof machinery: the key
space is infinite). -/
def jwkOfNat (n : Nat) : EcPublicJwk :=
  ⟨"P-384", "EC", ⟨List.replicate n 'a'⟩, ""⟩

/-! ## Concrete sample data for the instance checks below -/

instance (l : List Nat) : Decidable (isByteList l) :=
  inferInstanceAs (Decidable (∀ b ∈ l, b < 256))

/-- A sample local user. -/
def sampleUser : UserModel := ⟨("me"), ("Me"), 3, publicOfPrivate 3⟩

/-- A sample received text message (its recipient is no group id, so it files
under the sender, `alice`). -/
def sampleMsg : TextMessage := ⟨("m0"), ("alice"), ("bob"), ("ct"), ("iv"), 5⟩

/-- A direct conversation with `alice` that already holds `sampleMsg`. -/
def sampleChatAlice : Chat :=
  ⟨("alice"), ("Alice"), .dm, [sampleMsg], 1, [], none, none⟩

/-- A fresh message whose id does not occur in `sampleChatAlice`. -/
def sampleFreshMsg : TextMessage :=
  ⟨("m1"), ("alice"), ("bob"), ("ct2"), ("iv2"), 9⟩

/-- A message already stored in the sample group conversation. -/
def sampleGroupMsg : TextMessage :=
  ⟨("g1"), ("alice"), ("group-g"), ("ct"), ("iv"), 100⟩

/-- A sample group conversation holding one message and a group key. -/
def sampleGroupChat : Chat :=
  ⟨("group-g"), ("G"), .group, [sampleGroupMsg], 0,
   [⟨("me"), ("Me")⟩, ⟨("alice"), ("Alice")⟩], some ⟨[7]⟩, some ⟨[7]⟩⟩

/-- Two known, connected peers with settled (`stable`) connections. -/
def samplePeer1 : Peer := ⟨("p1"), ("PeerOne"), 10, .connected, .stable, none⟩

def samplePeer2 : Peer := ⟨("p2"), ("PeerTwo"), 11, .connected, .stable, none⟩

/-- The sample group conversation after a send at clock 100 (newer than the
stored message, so the push happens to stay in temporal order). -/
def sampleSentChat : Chat :=
  (mget (sendMessage sampleUser [] [(("group-g"), sampleGroupChat)]
    (some ("group-g")) ("") ("m9") 100 []).1 ("group-g")).getD sampleGroupChat

/-- The sample group conversation after a send at clock 50 (older than the
stored message at timestamp 100, so the pushed message lands out of order). -/
def sampleLateChat : Chat :=
  (mget (sendMessage sampleUser [] [(("group-g"), sampleGroupChat)]
    (some ("group-g")) ("") ("m9") 50 []).1 ("group-g")).getD sampleGroupChat

/-- The invite code generated for the sample group conversation. -/
def sampleInviteCode : String :=
  (generateGroupInviteCode [(("group-g"), sampleGroupChat)] ("group-g")).getD ("")

/-! # Helper lemmas -/

theorem string_mk_data (s : String) : (⟨s.data⟩ : String) = s := by cases s; rfl

theorem char_toNat_lt (c : Char) : c.toNat < 1114112 := by
  have h := c.valid
  rcases h with h | h
  · exact Nat.lt_trans h (by norm_num)
  · exact h.2

theorem char_not_surrogate (c : Char) : c.toNat < 55296 ∨ 57343 < c.toNat := by
  have h := c.valid
  rcases h with h | h
  · exact Or.inl h
  · exact Or.inr h.1

theorem sha256_length (msg : List Nat) : (sha256 msg).length = 32 := by
  simp [sha256, wordBytes]

theorem sha256_bytes_lt (msg : List Nat) : isByteList (sha256 msg) := by
  intro b hb
  simp [sha256, wordBytes] at hb
  rcases hb with h | h | h | h | h | h | h | h <;>
    rcases h with h | h | h | h <;> omega

theorem b64Val_b64Char {s : Nat} (h : s < 64) : b64Val (b64Char s) = some s := by
  have : ∀ t : Fin 64, b64Val (b64Char t.val) = some t.val := by decide
  exact this ⟨s, h⟩

theorem b64Char_ne_pad {s : Nat} (h : s < 64) : b64Char s ≠ '=' := by
  have : ∀ t : Fin 64, b64Char t.val ≠ '=' := by decide
  exact this ⟨s, h⟩

theorem b64_roundtrip : ∀ l : List Nat, isByteList l →
    b64DecodeList (b64EncodeList l) = some l
  | [], _ => rfl
  | [b1], h => by
    have hb1 : b1 < 256 := h b1 (by simp)
    have h1 : b1 / 4 < 64 := by omega
    have h2 : b1 % 4 * 16 < 64 := by omega
    simp [b64EncodeList, b64DecodeList, b64Val_b64Char h1, b64Val_b64Char h2,
      if_neg (b64Char_ne_pad h2)]
    omega
  | [b1, b2], h => by
    have hb1 : b1 < 256 := h b1 (by simp)
    have hb2 : b2 < 256 := h b2 (by simp)
    have h1 : b1 / 4 < 64 := by omega
    have h2 : b1 % 4 * 16 + b2 / 16 < 64 := by omega
    have h3 : b2 % 16 * 4 < 64 := by omega
    simp [b64EncodeList, b64DecodeList, b64Val_b64Char h1, b64Val_b64Char h2,
      b64Val_b64Char h3, if_neg (b64Char_ne_pad h2), if_neg (b64Char_ne_pad h3)]
    omega
  | b1 :: b2 :: b3 :: rest, h => by
    have hb1 : b1 < 256 := h b1 (by simp)
    have hb2 : b2 < 256 := h b2 (by simp)
    have hb3 : b3 < 256 := h b3 (by simp)
    have ih := b64_roundtrip rest (fun b hb => h b (by simp [hb]))
    have h1 : b1 / 4 < 64 := by omega
    have h2 : b1 % 4 * 16 + b2 / 16 < 64 := by omega
    have h3 : b2 % 16 * 4 + b3 / 64 < 64 := by omega
    have h4 : b3 % 64 < 64 := by omega
    simp [b64EncodeList, b64DecodeList, b64Val_b64Char h1, b64Val_b64Char h2,
      b64Val_b64Char h3, b64Val_b64Char h4, if_neg (b64Char_ne_pad h2),
      if_neg (b64Char_ne_pad h3), if_neg (b64Char_ne_pad h4), ih]
    omega


theorem utf8EncodeChar_bytes_lt (c : Char) : isByteList (utf8EncodeChar c) := by
  intro b hb
  have hv := char_toNat_lt c
  simp only [utf8EncodeChar] at hb
  split at hb
  · simp at hb; omega
  · split at hb
    · simp at hb; omega
    · split at hb
      · simp at hb; omega
      · simp at hb; omega

theorem utf8Encode_bytes_lt (s : String) : isByteList (utf8Encode s) := by
  intro b hb
  simp only [utf8Encode, List.mem_flatMap] at hb
  obtain ⟨c, _, hc⟩ := hb
  exact utf8EncodeChar_bytes_lt c b hc

theorem utf8DecodeOne_encodeChar (c : Char) (rest : List Nat) :
    utf8DecodeOne (utf8EncodeChar c ++ rest) = some (some c, rest) := by
  have hv := char_toNat_lt c
  have hofn := Char.ofNat_toNat c
  simp only [utf8EncodeChar]
  split
  · rename_i h1
    simp only [List.cons_append, List.nil_append, utf8DecodeOne]
    rw [if_pos h1, hofn]
  · split
    · rename_i h1 h2
      simp only [List.cons_append, List.nil_append, utf8DecodeOne]
      have g1 : ¬ (192 + c.toNat / 64 < 128) := by omega
      have g2 : ¬ (192 + c.toNat / 64 < 192) := by omega
      have g3 : 192 + c.toNat / 64 < 224 := by omega
      have gc : isCont (128 + c.toNat % 64) = true := by
        simp only [isCont, Bool.and_eq_true, decide_eq_true_eq]
        omega
      rw [if_neg g1, if_neg g2, if_pos g3, if_pos gc]
      have harith : (192 + c.toNat / 64 - 192) * 64 + (128 + c.toNat % 64 - 128) =
          c.toNat := by omega
      rw [harith, hofn]
    · split
      · rename_i h1 h2 h3
        simp only [List.cons_append, List.nil_append, utf8DecodeOne]
        have g1 : ¬ (224 + c.toNat / 4096 < 128) := by omega
        have g2 : ¬ (224 + c.toNat / 4096 < 192) := by omega
        have g3 : ¬ (224 + c.toNat / 4096 < 224) := by omega
        have g4 : 224 + c.toNat / 4096 < 240 := by omega
        have gc : (isCont (128 + c.toNat / 64 % 64) && isCont (128 + c.toNat % 64)) =
            true := by
          simp only [isCont, Bool.and_eq_true, decide_eq_true_eq]
          omega
        rw [if_neg g1, if_neg g2, if_neg g3, if_pos g4, if_pos gc]
        have harith : ((224 + c.toNat / 4096 - 224) * 64 + (128 + c.toNat / 64 % 64 - 128)) *
            64 + (128 + c.toNat % 64 - 128) = c.toNat := by omega
        rw [harith, hofn]
      · rename_i h1 h2 h3
        simp only [List.cons_append, List.nil_append, utf8DecodeOne]
        have g1 : ¬ (240 + c.toNat / 262144 < 128) := by omega
        have g2 : ¬ (240 + c.toNat / 262144 < 192) := by omega
        have g3 : ¬ (240 + c.toNat / 262144 < 224) := by omega
        have g4 : ¬ (240 + c.toNat / 262144 < 240) := by omega
        have g5 : 240 + c.toNat / 262144 < 248 := by omega
        have gc : (isCont (128 + c.toNat / 4096 % 64) && isCont (128 + c.toNat / 64 % 64) &&
            isCont (128 + c.toNat % 64)) = true := by
          simp only [isCont, Bool.and_eq_true, decide_eq_true_eq]
          omega
        rw [if_neg g1, if_neg g2, if_neg g3, if_neg g4, if_pos g5, if_pos gc]
        have harith : (((240 + c.toNat / 262144 - 240) * 64 + (128 + c.toNat / 4096 % 64 - 128)) *
            64 + (128 + c.toNat / 64 % 64 - 128)) * 64 + (128 + c.toNat % 64 - 128) =
            c.toNat := by omega
        rw [harith, hofn]

theorem utf8DecodeAux_encode_append (cs : List Char) :
    ∀ fuel rest, utf8DecodeAux (cs.length + fuel) (cs.flatMap utf8EncodeChar ++ rest) =
      (utf8DecodeAux fuel rest).map (fun t => cs ++ t) := by
  induction cs with
  | nil =>
    intro fuel rest
    simp only [List.length_nil, Nat.zero_add, List.flatMap_nil, List.nil_append]
    cases h : utf8DecodeAux fuel rest <;> simp
  | cons c cs ih =>
    intro fuel rest
    have harr : (c :: cs).length + fuel = (cs.length + fuel) + 1 := by
      simp [List.length_cons]; omega
    rw [harr]
    rw [utf8DecodeAux]
    simp only [List.flatMap_cons, List.append_assoc]
    rw [utf8DecodeOne_encodeChar]
    show (utf8DecodeAux (cs.length + fuel) (cs.flatMap utf8EncodeChar ++ rest)).map
      (fun t => c :: t) = _
    rw [ih fuel rest]
    cases h : utf8DecodeAux fuel rest <;> simp

theorem utf8Encode_length_ge (s : String) : s.data.length ≤ (utf8Encode s).length := by
  unfold utf8Encode
  induction s.data with
  | nil => simp
  | cons c cs ih =>
    simp only [List.flatMap_cons, List.length_append, List.length_cons]
    have : 1 ≤ (utf8EncodeChar c).length := by
      simp only [utf8EncodeChar]
      split
      · simp
      · split
        · simp
        · split
          · simp
          · simp
    omega

theorem utf8_roundtrip (s : String) : utf8Decode (utf8Encode s) = some s := by
  have hlen := utf8Encode_length_ge s
  have h := utf8DecodeAux_encode_append s.data
    ((utf8Encode s).length + 1 - s.data.length) []
  rw [List.append_nil] at h
  have harith : s.data.length + ((utf8Encode s).length + 1 - s.data.length) =
      (utf8Encode s).length + 1 := by omega
  rw [harith] at h
  have h0 : ∀ f, utf8DecodeAux (f + 1) ([] : List Nat) = some [] := by
    intro f
    rw [utf8DecodeAux]
    rfl
  have hf : (utf8Encode s).length + 1 - s.data.length =
      ((utf8Encode s).length - s.data.length) + 1 := by omega
  rw [hf, h0] at h
  unfold utf8Decode utf8DecodeList
  unfold utf8Encode at h ⊢
  rw [h]
  simp [string_mk_data]


theorem frameList_nil : frameList [] = [255, 1] := rfl

theorem frameList_cons (b : Nat) (l : List Nat) :
    frameList (b :: l) = (if b = 255 then [255, 0] else [b]) ++ frameList l := by
  simp only [frameList, List.flatMap_cons, List.append_assoc]

theorem unframeOne_chunk (b : Nat) (x : List Nat) :
    unframeOne ((if b = 255 then [255, 0] else [b]) ++ x) = some (some b, x) := by
  by_cases hb : b = 255
  · subst hb
    simp [unframeOne]
  · simp [unframeOne, hb]

theorem unframeAux_frame (l : List Nat) : ∀ fuel rest,
    unframeAux (l.length + fuel + 1) (frameList l ++ rest) = some (l, rest) := by
  induction l with
  | nil =>
    intro fuel rest
    rw [frameList_nil, List.length_nil, Nat.zero_add, unframeAux]
    simp [unframeOne]
  | cons b l ih =>
    intro fuel rest
    rw [frameList_cons, List.append_assoc]
    have harr : (b :: l).length + fuel + 1 = (l.length + fuel + 1) + 1 := by
      simp [List.length_cons]; omega
    rw [harr, unframeAux, unframeOne_chunk]
    show (unframeAux (l.length + fuel + 1) (frameList l ++ rest)).map
      (fun p => (b :: p.1, p.2)) = _
    rw [ih fuel rest]
    rfl

theorem escFlat_length_ge (l : List Nat) :
    l.length ≤ (l.flatMap fun b => if b = 255 then [255, 0] else [b]).length := by
  induction l with
  | nil => simp
  | cons b l ih =>
    simp only [List.flatMap_cons, List.length_append, List.length_cons]
    have hch : 1 ≤ (if b = 255 then [255, 0] else [b]).length := by
      split <;> simp
    omega

theorem unframeList_frame (l rest : List Nat) :
    unframeList (frameList l ++ rest) = some (l, rest) := by
  have hg := escFlat_length_ge l
  have hlen : l.length ≤ (frameList l ++ rest).length := by
    simp only [frameList, List.length_append]
    omega
  unfold unframeList
  have harr : (frameList l ++ rest).length + 1 =
      l.length + ((frameList l ++ rest).length - l.length) + 1 := by omega
  rw [harr, unframeAux_frame]

theorem unframeList_frame_nil (l : List Nat) :
    unframeList (frameList l) = some (l, []) := by
  have h := unframeList_frame l []
  rwa [List.append_nil] at h

theorem unframeOne_sound_none (s : List Nat) (rest : List Nat)
    (h : unframeOne s = some (none, rest)) : s = 255 :: 1 :: rest := by
  match s with
  | [] => simp [unframeOne] at h
  | b :: r =>
    simp only [unframeOne] at h
    by_cases hb : b = 255
    · rw [if_pos hb] at h
      subst hb
      match r with
      | [] => simp at h
      | b2 :: r2 =>
        by_cases h0 : b2 = 0
        · subst h0
          simp at h
        · by_cases h1 : b2 = 1
          · subst h1
            simp at h
            subst h
            rfl
          · simp [h0, h1] at h
    · rw [if_neg hb] at h
      simp at h

theorem unframeOne_sound_some (s : List Nat) (b : Nat) (rest : List Nat)
    (h : unframeOne s = some (some b, rest)) :
    s = (if b = 255 then [255, 0] else [b]) ++ rest := by
  match s with
  | [] => simp [unframeOne] at h
  | b1 :: r =>
    simp only [unframeOne] at h
    by_cases hb : b1 = 255
    · rw [if_pos hb] at h
      subst hb
      match r with
      | [] => simp at h
      | b2 :: r2 =>
        by_cases h0 : b2 = 0
        · subst h0
          simp at h
          obtain ⟨hbv, hr⟩ := h
          subst hr
          rw [← hbv]
          simp
        · by_cases h1 : b2 = 1
          · subst h1
            simp at h
          · simp [h0, h1] at h
    · rw [if_neg hb] at h
      simp at h
      obtain ⟨hbv, hr⟩ := h
      subst hr
      rw [← hbv]
      simp [hb]

theorem unframeAux_sound : ∀ (fuel : Nat) (s l rest : List Nat),
    unframeAux fuel s = some (l, rest) → s = frameList l ++ rest := by
  intro fuel
  induction fuel with
  | zero => intro s l rest h; simp [unframeAux] at h
  | succ fuel ih =>
    intro s l rest h
    rw [unframeAux] at h
    match h1 : unframeOne s with
    | none => rw [h1] at h; simp at h
    | some (none, r) =>
      rw [h1] at h
      simp at h
      obtain ⟨rfl, rfl⟩ := h
      have hs := unframeOne_sound_none s r h1
      rw [hs, frameList_nil]
      rfl
    | some (some b, r) =>
      rw [h1] at h
      simp at h
      obtain ⟨p, hp, rfl⟩ := h
      have hs := unframeOne_sound_some s b r h1
      have hr2 := ih r p rest hp
      rw [hs, hr2, frameList_cons]
      simp

theorem unframeList_sound (s l rest : List Nat)
    (h : unframeList s = some (l, rest)) : s = frameList l ++ rest :=
  unframeAux_sound (s.length + 1) s l rest h

theorem aesGcm_roundtrip (key : SymKey) (iv pt : List Nat) :
    aesGcmDecrypt key iv (aesGcmEncrypt key iv pt) = some pt := by
  simp only [aesGcmEncrypt, aesGcmDecrypt, List.append_assoc, unframeList_frame,
    unframeList_frame_nil]
  simp

theorem aesGcm_wrong_key (key key' : SymKey) (iv pt : List Nat)
    (h : key'.material ≠ key.material) :
    aesGcmDecrypt key' iv (aesGcmEncrypt key iv pt) = none := by
  simp only [aesGcmEncrypt, aesGcmDecrypt, List.append_assoc, unframeList_frame,
    unframeList_frame_nil]
  simp [Ne.symm h]

theorem aesGcm_complete (key : SymKey) (iv ct pt : List Nat)
    (h : aesGcmDecrypt key iv ct = some pt) : ct = aesGcmEncrypt key iv pt := by
  unfold aesGcmDecrypt at h
  split at h
  · simp at h
  · rename_i km r1 h1
    split at h
    · simp at h
    · rename_i ivd r2 h2
      split at h
      · simp at h
      · rename_i ptd r3 h3
        split at h
        · rename_i hcond
          obtain ⟨hkm, hivd, hr3⟩ := hcond
          simp only [Option.some.injEq] at h
          have e1 := unframeList_sound ct km r1 h1
          have e2 := unframeList_sound r1 ivd r2 h2
          have e3 := unframeList_sound r2 ptd r3 h3
          subst hkm hivd hr3 h
          rw [e1, e2, e3]
          simp [aesGcmEncrypt]
        · simp at h

theorem frameList_bytes_lt (l : List Nat) (h : isByteList l) :
    isByteList (frameList l) := by
  intro b hb
  simp only [frameList, List.mem_append, List.mem_flatMap] at hb
  rcases hb with ⟨a, ha, hchunk⟩ | hterm
  · by_cases h255 : a = 255
    · rw [if_pos h255] at hchunk
      simp at hchunk
      rcases hchunk with h1 | h1 <;> omega
    · rw [if_neg h255] at hchunk
      simp at hchunk
      subst hchunk
      exact h _ ha
  · simp at hterm
    rcases hterm with h1 | h1 <;> omega

theorem aesGcmEncrypt_bytes_lt (key : SymKey) (iv pt : List Nat)
    (hk : isByteList key.material) (hiv : isByteList iv) (hpt : isByteList pt) :
    isByteList (aesGcmEncrypt key iv pt) := by
  intro b hb
  simp only [aesGcmEncrypt, List.mem_append] at hb
  rcases hb with (hb | hb) | hb
  · exact frameList_bytes_lt _ hk b hb
  · exact frameList_bytes_lt _ hiv b hb
  · exact frameList_bytes_lt _ hpt b hb


theorem data_mk (l : List Char) : (String.mk l).data = l := rfl

theorem decryptTextMessage_roundtrip (content : String) (key : SymKey)
    (iv : List Nat) (hk : isByteList key.material) (hiv : isByteList iv) :
    decryptTextMessage (encryptTextMessage content key iv).encryptedContent
      (encryptTextMessage content key iv).iv key = some content := by
  have hct : isByteList (aesGcmEncrypt key iv (utf8Encode content)) :=
    aesGcmEncrypt_bytes_lt key iv (utf8Encode content) hk hiv
      (utf8Encode_bytes_lt content)
  unfold encryptTextMessage decryptTextMessage
  simp only [data_mk]
  rw [b64_roundtrip _ hct, b64_roundtrip _ hiv]
  simp only [Option.bind_eq_bind, Option.some_bind]
  rw [aesGcm_roundtrip]
  simp only [Option.some_bind]
  exact utf8_roundtrip content

theorem decryptTextMessage_wrong_key (content : String) (key key' : SymKey)
    (iv : List Nat) (hk : isByteList key.material) (hiv : isByteList iv)
    (hne : key'.material ≠ key.material) :
    decryptTextMessage (encryptTextMessage content key iv).encryptedContent
      (encryptTextMessage content key iv).iv key' = none := by
  have hct : isByteList (aesGcmEncrypt key iv (utf8Encode content)) :=
    aesGcmEncrypt_bytes_lt key iv (utf8Encode content) hk hiv
      (utf8Encode_bytes_lt content)
  unfold encryptTextMessage decryptTextMessage
  simp only [data_mk]
  rw [b64_roundtrip _ hct, b64_roundtrip _ hiv]
  simp only [Option.bind_eq_bind, Option.some_bind]
  rw [aesGcm_wrong_key key key' iv _ hne]
  rfl

/-! JSON string scanning -/

theorem hexCharVal_hexDigitChar {v : Nat} (h : v < 16) :
    hexCharVal (hexDigitChar v) = some v := by
  have : ∀ t : Fin 16, hexCharVal (hexDigitChar t.val) = some t.val := by decide
  exact this ⟨v, h⟩

theorem scanJsonToken_escapeChar (c : Char) (rest : List Char) :
    scanJsonToken (jsonEscapeChar c ++ rest) = some (some c, rest) := by
  have hofn := Char.ofNat_toNat c
  unfold jsonEscapeChar
  split_ifs with h1 h2 h3 h4 h5 h6 h7 h8
  · subst h1; simp [scanJsonToken]
  · subst h2; simp [scanJsonToken]
  · subst h3; simp [scanJsonToken]
  · subst h4; simp [scanJsonToken]
  · subst h5; simp [scanJsonToken]
  · subst h6; simp [scanJsonToken]
  · subst h7; simp [scanJsonToken]
  · have hv1 : c.toNat / 16 < 16 := by omega
    have hv2 : c.toNat % 16 < 16 := by omega
    have hz : hexCharVal '0' = some 0 := by decide
    have harith : ((0 * 16 + 0) * 16 + c.toNat / 16) * 16 + c.toNat % 16 = c.toNat := by
      omega
    simp [scanJsonToken, hz, hexCharVal_hexDigitChar hv1, hexCharVal_hexDigitChar hv2,
      harith, hofn]
    rw [show c.toNat / 16 * 16 + c.toNat % 16 = c.toNat from by omega, hofn]
  · simp [scanJsonToken, h1, h2]

theorem scanJsonAux_escape (cs : List Char) : ∀ fuel rest,
    scanJsonAux (cs.length + fuel + 1) (jsonEscape cs ++ '"' :: rest) =
      some (cs, rest) := by
  induction cs with
  | nil =>
    intro fuel rest
    simp only [jsonEscape, List.flatMap_nil, List.nil_append, List.length_nil,
      Nat.zero_add]
    rw [scanJsonAux]
    simp [scanJsonToken]
  | cons c cs ih =>
    intro fuel rest
    have harr : (c :: cs).length + fuel + 1 = (cs.length + fuel + 1) + 1 := by
      simp [List.length_cons]; omega
    rw [harr, scanJsonAux]
    simp only [jsonEscape, List.flatMap_cons, List.append_assoc]
    rw [scanJsonToken_escapeChar]
    show (scanJsonAux (cs.length + fuel + 1) (cs.flatMap jsonEscapeChar ++ '"' :: rest)).map
      (fun p => (c :: p.1, p.2)) = _
    rw [show cs.flatMap jsonEscapeChar = jsonEscape cs from rfl, ih fuel rest]
    rfl

theorem jsonEscape_length_ge (cs : List Char) : cs.length ≤ (jsonEscape cs).length := by
  induction cs with
  | nil => simp [jsonEscape]
  | cons c cs ih =>
    simp only [jsonEscape, List.flatMap_cons, List.length_append, List.length_cons] at *
    have hch : 1 ≤ (jsonEscapeChar c).length := by
      unfold jsonEscapeChar
      split_ifs <;> simp
    omega

theorem scanJsonString_escape (cs : List Char) (rest : List Char) :
    scanJsonString (jsonEscape cs ++ '"' :: rest) = some (cs, rest) := by
  have hge := jsonEscape_length_ge cs
  unfold scanJsonString
  have hlen : cs.length ≤ (jsonEscape cs ++ '"' :: rest).length := by
    simp only [List.length_append, List.length_cons]
    omega
  have harr : (jsonEscape cs ++ '"' :: rest).length + 1 =
      cs.length + ((jsonEscape cs ++ '"' :: rest).length - cs.length) + 1 := by omega
  rw [harr, scanJsonAux_escape]

theorem dropLit_append (lit rest : List Char) : dropLit lit (lit ++ rest) = some rest := by
  induction lit with
  | nil => rfl
  | cons c cs ih => simp [dropLit, ih]


theorem b64Char_getD (s : Nat) : b64Char s = b64Alphabet.getD s 'A' := rfl

theorem jsonEscapeChar_b64Char (s : Nat) : jsonEscapeChar (b64Char s) = [b64Char s] := by
  by_cases h : s < 64
  · have : ∀ t : Fin 64, jsonEscapeChar (b64Char t.val) = [b64Char t.val] := by decide
    exact this ⟨s, h⟩
  · have hlen : b64Alphabet.length ≤ s := by
      have : b64Alphabet.length = 64 := by decide
      omega
    rw [b64Char_getD, List.getD_eq_default _ _ hlen]
    decide

theorem jsonEscapeChar_pad : jsonEscapeChar '=' = ['='] := by decide

theorem flatMap_singleton {α : Type} (l : List α) (f : α → List α)
    (h : ∀ c ∈ l, f c = [c]) : l.flatMap f = l := by
  induction l with
  | nil => simp
  | cons c cs ih =>
    simp only [List.flatMap_cons, h c (by simp)]
    rw [ih (fun d hd => h d (by simp [hd]))]
    rfl

theorem b64EncodeList_chars : ∀ (l : List Nat) (c : Char), c ∈ b64EncodeList l →
    jsonEscapeChar c = [c]
  | [], c => by simp [b64EncodeList]
  | [b1], c => by
    intro hc
    simp only [b64EncodeList, List.mem_cons, List.not_mem_nil, or_false] at hc
    rcases hc with rfl | rfl | rfl | rfl
    · exact jsonEscapeChar_b64Char _
    · exact jsonEscapeChar_b64Char _
    · exact jsonEscapeChar_pad
    · exact jsonEscapeChar_pad
  | [b1, b2], c => by
    intro hc
    simp only [b64EncodeList, List.mem_cons, List.not_mem_nil, or_false] at hc
    rcases hc with rfl | rfl | rfl | rfl
    · exact jsonEscapeChar_b64Char _
    · exact jsonEscapeChar_b64Char _
    · exact jsonEscapeChar_b64Char _
    · exact jsonEscapeChar_pad
  | b1 :: b2 :: b3 :: rest, c => by
    intro hc
    simp only [b64EncodeList, List.mem_cons] at hc
    rcases hc with rfl | rfl | rfl | rfl | hc
    · exact jsonEscapeChar_b64Char _
    · exact jsonEscapeChar_b64Char _
    · exact jsonEscapeChar_b64Char _
    · exact jsonEscapeChar_b64Char _
    · exact b64EncodeList_chars rest c hc

theorem jsonEscape_b64 (l : List Nat) : jsonEscape (b64EncodeList l) = b64EncodeList l :=
  flatMap_singleton _ _ (b64EncodeList_chars l)

theorem dropLit_self (l : List Char) : dropLit l l = some [] := by
  have h := dropLit_append l []
  rwa [List.append_nil] at h

theorem scanJsonString_escape_cons (cs t : List Char) (rest : List Char) :
    scanJsonString (jsonEscape cs ++ (('"' :: t) ++ rest)) = some (cs, t ++ rest) := by
  rw [List.cons_append, scanJsonString_escape]

theorem parse_stringify (p : GroupInvitePayload) (hk : isByteList p.key.k) :
    parseGroupPayload (stringifyGroupPayload p) = some p := by
  obtain ⟨gid, gname, kjwk⟩ := p
  obtain ⟨kbytes⟩ := kjwk
  have hk' : isByteList kbytes := hk
  unfold parseGroupPayload stringifyGroupPayload stringifyOctJwk
  simp only [data_mk, List.append_assoc]
  rw [dropLit_append]
  simp only [Option.bind_eq_bind, Option.some_bind]
  rw [scanJsonString_escape_cons]
  simp only [Option.some_bind]
  rw [dropLit_append]
  simp only [Option.some_bind]
  rw [scanJsonString_escape_cons]
  simp only [Option.some_bind]
  rw [dropLit_append]
  simp only [Option.some_bind]
  rw [dropLit_append]
  simp only [Option.some_bind]
  rw [← jsonEscape_b64 kbytes]
  rw [scanJsonString_escape_cons]
  simp only [Option.some_bind]
  rw [show ((['\x7d'] : List Char) ++ ['\x7d']) = ['\x7d', '\x7d'] from rfl]
  rw [dropLit_self]
  simp only [Option.some_bind, List.isEmpty_nil, if_true]
  rw [b64_roundtrip _ hk']
  simp only [Option.some_bind, string_mk_data]
  rfl


theorem mget_nil (k : String) : mget [] k = none := rfl

theorem mget_cons (a : String × Chat) (m : ChatMap) (k : String) :
    mget (a :: m) k = if a.1 = k then some a.2 else mget m k := by
  by_cases ha : a.1 = k
  · simp [mget, List.find?, ha]
  · simp [mget, List.find?, ha]

theorem mget_mset_self (m : ChatMap) (k : String) (v : Chat) :
    mget (mset m k v) k = some v := by
  unfold mset
  by_cases hany : List.any m (fun e => e.1 = k) = true
  · rw [if_pos hany]
    induction m with
    | nil => simp at hany
    | cons a m ih =>
      simp only [List.any_cons, Bool.or_eq_true, decide_eq_true_eq] at hany
      by_cases ha : a.1 = k
      · simp only [List.map_cons, if_pos ha, mget_cons]
        simp
      · have h' : (m.any fun e => decide (e.1 = k)) = true := by
          rcases hany with h | h
          · exact absurd h ha
          · exact h
        simp only [List.map_cons, if_neg ha, mget_cons]
        exact ih h'
  · rw [if_neg hany]
    simp only [Bool.not_eq_true, List.any_eq_false, decide_eq_true_eq] at hany
    induction m with
    | nil => simp [mget_cons]
    | cons a m ih =>
      have ha : ¬ a.1 = k := hany a (by simp)
      simp only [List.cons_append, mget_cons]
      rw [if_neg ha]
      exact ih (fun e he => hany e (by simp [he]))

theorem mget_mset_ne (m : ChatMap) (k k' : String) (v : Chat) (h : k' ≠ k) :
    mget (mset m k v) k' = mget m k' := by
  unfold mset
  by_cases hany : List.any m (fun e => e.1 = k) = true
  · rw [if_pos hany]
    clear hany
    induction m with
    | nil => simp
    | cons a m ih =>
      by_cases ha : a.1 = k
      · simp only [List.map_cons, if_pos ha, mget_cons]
        rw [if_neg (fun hh : k = k' => h hh.symm),
          if_neg (fun hh : a.1 = k' => h (ha ▸ hh).symm)]
        exact ih
      · simp only [List.map_cons, if_neg ha, mget_cons]
        by_cases ha' : a.1 = k'
        · rw [if_pos ha', if_pos ha']
        · rw [if_neg ha', if_neg ha']
          exact ih
  · rw [if_neg hany]
    clear hany
    induction m with
    | nil =>
      simp only [List.nil_append, mget_cons, mget_nil]
      rw [if_neg (fun hh : k = k' => h hh.symm)]
    | cons a m ih =>
      simp only [List.cons_append, mget_cons]
      by_cases ha' : a.1 = k'
      · rw [if_pos ha', if_pos ha']
      · rw [if_neg ha', if_neg ha']
        exact ih

theorem sortByTimestamp_sorted (l : List TextMessage) :
    List.Sorted tmLe (sortByTimestamp l) :=
  List.sorted_insertionSort tmLe l

theorem sortByTimestamp_perm (l : List TextMessage) :
    (sortByTimestamp l).Perm l :=
  List.perm_insertionSort tmLe l

theorem sortByTimestamp_length (l : List TextMessage) :
    (sortByTimestamp l).length = l.length :=
  (sortByTimestamp_perm l).length_eq

theorem sortByTimestamp_mem (x : TextMessage) (l : List TextMessage) :
    x ∈ sortByTimestamp l ↔ x ∈ l :=
  (sortByTimestamp_perm l).mem_iff

theorem handleNewMessage_nonText (active : Option String) (senderId : String)
    (chats : ChatMap) :
    handleNewMessage active senderId .nonText chats = (chats, []) := rfl

theorem handleNewMessage_noChat (active : Option String) (senderId : String)
    (m : TextMessage) (chats : ChatMap)
    (hnone : mget chats (targetChatId senderId m) = none) :
    handleNewMessage active senderId (.text m) chats = (chats, []) := by
  simp only [handleNewMessage]
  rw [hnone]

theorem handleNewMessage_dup (active : Option String) (senderId : String)
    (m : TextMessage) (chats : ChatMap) (chat : Chat)
    (hc : mget chats (targetChatId senderId m) = some chat)
    (hdup : (chat.messages.any fun x => x.id = m.id) = true) :
    handleNewMessage active senderId (.text m) chats = (chats, []) := by
  simp only [handleNewMessage]
  rw [hc]
  simp only [hdup]
  rfl

theorem handleNewMessage_insert (active : Option String) (senderId : String)
    (m : TextMessage) (chats : ChatMap) (chat : Chat)
    (hc : mget chats (targetChatId senderId m) = some chat)
    (hfresh : ¬ (chat.messages.any fun x => x.id = m.id) = true) :
    handleNewMessage active senderId (.text m) chats =
      (mset chats (targetChatId senderId m)
        { chat with
          messages := sortByTimestamp (chat.messages ++ [m]),
          unreadCount :=
            if some (targetChatId senderId m) ≠ active then chat.unreadCount + 1
            else chat.unreadCount },
       [(m, targetChatId senderId m)]) := by
  simp only [handleNewMessage]
  rw [hc]
  simp only [hfresh]
  rfl


theorem sendMessage_none_active (user : UserModel) (peers : List Peer)
    (chats : ChatMap) (content freshId : String) (now : Nat) (iv : List Nat) :
    sendMessage user peers chats none content freshId now iv = (chats, [], []) := rfl

theorem sendMessage_cases (user : UserModel) (peers : List Peer) (chats : ChatMap)
    (aId : String) (content freshId : String) (now : Nat) (iv : List Nat) :
    (sendMessage user peers chats (some aId) content freshId now iv).1 = chats ∨
    ∃ chat ec ivs,
      mget chats aId = some chat ∧
      (sendMessage user peers chats (some aId) content freshId now iv).1 =
        mset chats aId
          { chat with
            messages := chat.messages ++ [⟨freshId, user.id, chat.id, ec, ivs, now⟩] } := by
  unfold sendMessage
  split
  · left; rfl
  · rename_i aId' hx
    injection hx with hx'
    subst hx'
    split
    · left; rfl
    · rename_i chat hg
      split
      · left; rfl
      · rename_i ec ivs recipientIds henc
        right
        exact ⟨chat, ec, ivs, hg, rfl⟩

/-! Focus invariant (`unreadCount` of the focused conversation) -/

theorem focusInv_parts (chs : ChatMap) (act : Option String) (sc : List StoredChat)
    (sm : List (TextMessage × String))
    (h : ∀ cid chat, act = some cid → mget chs cid = some chat →
      chat.unreadCount = 0) :
    FocusInvariant ⟨chs, act, sc, sm⟩ := h

theorem focusInv_clearEffect (st : AppState) : FocusInvariant (applyClearEffect st) := by
  unfold applyClearEffect
  split
  · rename_i ha
    intro cid chat hactive hget
    rw [ha] at hactive
    simp at hactive
  · rename_i cid0 ha
    split
    · rename_i hg
      intro cid chat hactive hget
      rw [ha] at hactive
      simp at hactive
      subst hactive
      rw [hget] at hg
      simp at hg
    · rename_i chat0 hg
      split
      · rename_i hpos
        apply focusInv_parts
        intro cid chat hactive hget
        have hact : st.activeChatId = some cid := hactive
        rw [ha] at hact
        simp at hact
        subst hact
        rw [mget_mset_self] at hget
        simp at hget
        rw [← hget]
      · rename_i hpos
        intro cid chat hactive hget
        rw [ha] at hactive
        simp at hactive
        subst hactive
        rw [hget] at hg
        simp at hg
        subst hg
        omega

theorem focusInv_setActive (cid : String) (st : AppState)
    (h : FocusInvariant st) : FocusInvariant (setActiveChat cid st) := by
  unfold setActiveChat
  split
  · exact h
  · exact focusInv_clearEffect _

theorem focusInv_receive (user : UserModel) (peers : List Peer) (st : AppState)
    (senderId : String) (message : AppMessage) (h : FocusInvariant st) :
    FocusInvariant (applyAction user peers st (.receive senderId message)) := by
  show FocusInvariant
    ⟨(handleNewMessage st.activeChatId senderId message st.chats).1, st.activeChatId,
     st.savedChats,
     st.savedMessages ++ (handleNewMessage st.activeChatId senderId message st.chats).2⟩
  apply focusInv_parts
  intro cid chat hactive hget
  match message with
  | .nonText =>
    rw [handleNewMessage_nonText] at hget
    exact h cid chat hactive hget
  | .text m =>
    match hg : mget st.chats (targetChatId senderId m) with
    | none =>
      rw [handleNewMessage_noChat st.activeChatId senderId m st.chats hg] at hget
      exact h cid chat hactive hget
    | some tchat =>
      by_cases hdup : (tchat.messages.any fun x => x.id = m.id) = true
      · rw [handleNewMessage_dup st.activeChatId senderId m st.chats tchat hg hdup] at hget
        exact h cid chat hactive hget
      · rw [handleNewMessage_insert st.activeChatId senderId m st.chats tchat hg hdup] at hget
        by_cases hcid : cid = targetChatId senderId m
        · rw [hcid] at hget
          rw [mget_mset_self] at hget
          simp at hget
          have heqa : some (targetChatId senderId m) = st.activeChatId := by
            rw [← hcid]
            exact hactive.symm
          rw [if_pos heqa] at hget
          have h0 := h cid tchat hactive (by rw [hcid]; exact hg)
          rw [← hget]
          exact h0
        · rw [mget_mset_ne _ _ _ _ hcid] at hget
          exact h cid chat hactive hget


theorem focusInv_send (user : UserModel) (peers : List Peer) (st : AppState)
    (content freshId : String) (now : Nat) (iv : List Nat) (h : FocusInvariant st) :
    FocusInvariant (applyAction user peers st (.send content freshId now iv)) := by
  show FocusInvariant
    ⟨(sendMessage user peers st.chats st.activeChatId content freshId now iv).1,
     st.activeChatId, st.savedChats,
     st.savedMessages ++
       (sendMessage user peers st.chats st.activeChatId content freshId now iv).2.1⟩
  apply focusInv_parts
  intro cid chat hactive hget
  match ha : st.activeChatId with
  | none =>
    rw [ha] at hget
    rw [sendMessage_none_active] at hget
    exact h cid chat hactive hget
  | some aId =>
    have hcid0 : aId = cid := by
      rw [ha] at hactive
      simpa using hactive
    subst hcid0
    rw [ha] at hget
    rcases sendMessage_cases user peers st.chats aId content freshId now iv with
      hcase | ⟨tchat, ec, ivs, hg, hcase⟩
    · rw [hcase] at hget
      exact h aId chat ha hget
    · rw [hcase] at hget
      rw [mget_mset_self] at hget
      simp at hget
      have h0 := h aId tchat ha hg
      rw [← hget]
      exact h0

theorem focusInv_select (user : UserModel) (peers : List Peer) (st : AppState)
    (peerOrChatId : String) (h : FocusInvariant st) :
    FocusInvariant (applyAction user peers st (.select peerOrChatId)) := by
  show FocusInvariant (selectChat user peers peerOrChatId st)
  unfold selectChat
  apply focusInv_setActive
  split
  · rename_i peer hg hp
    apply focusInv_parts
    intro cid chat hactive hget
    have hact : st.activeChatId = some cid := hactive
    by_cases hcid : cid = peerOrChatId
    · subst hcid
      rw [mget_mset_self] at hget
      simp at hget
      rw [← hget]
    · rw [mget_mset_ne _ _ _ _ hcid] at hget
      exact h cid chat hact hget
  · exact h

theorem focusInv_newGroup (user : UserModel) (peers : List Peer) (st : AppState)
    (name uuid : String) (entropy : List Nat) (h : FocusInvariant st) :
    FocusInvariant (applyAction user peers st (.newGroup name uuid entropy)) := by
  show FocusInvariant (createGroup user name uuid entropy st)
  unfold createGroup
  apply focusInv_setActive
  apply focusInv_parts
  intro cid chat hactive hget
  have hact : st.activeChatId = some cid := hactive
  by_cases hcid : cid = ("group-") ++ uuid
  · subst hcid
    rw [mget_mset_self] at hget
    simp at hget
    rw [← hget]
  · rw [mget_mset_ne _ _ _ _ hcid] at hget
    exact h cid chat hact hget

theorem focusInv_join (user : UserModel) (peers : List Peer) (st : AppState)
    (inviteCode : String) (h : FocusInvariant st) :
    FocusInvariant (applyAction user peers st (.join inviteCode)) := by
  show FocusInvariant (joinGroup user inviteCode st)
  unfold joinGroup
  split
  · exact h
  · rename_i p hdec
    split
    · exact focusInv_setActive _ _ h
    · apply focusInv_setActive
      apply focusInv_parts
      intro cid chat hactive hget
      have hact : st.activeChatId = some cid := hactive
      by_cases hcid : cid = p.groupId
      · subst hcid
        rw [mget_mset_self] at hget
        simp at hget
        rw [← hget]
      · rw [mget_mset_ne _ _ _ _ hcid] at hget
        exact h cid chat hact hget

theorem focusInv_step (user : UserModel) (peers : List Peer) (st : AppState)
    (a : Action) (h : FocusInvariant st) :
    FocusInvariant (applyAction user peers st a) := by
  match a with
  | .receive senderId message => exact focusInv_receive user peers st senderId message h
  | .select peerOrChatId => exact focusInv_select user peers st peerOrChatId h
  | .send content freshId now iv => exact focusInv_send user peers st content freshId now iv h
  | .newGroup name uuid entropy => exact focusInv_newGroup user peers st name uuid entropy h
  | .join inviteCode => exact focusInv_join user peers st inviteCode h

theorem focusInv_initial : FocusInvariant initialState := by
  intro cid chat hactive _
  simp [initialState] at hactive

theorem focusInv_run (user : UserModel) (peers : List Peer) (acts : List Action)
    (st : AppState) (h : FocusInvariant st) :
    FocusInvariant (runActions user peers acts st) := by
  induction acts generalizing st with
  | nil => exact h
  | cons a acts ih =>
    exact ih (applyAction user peers st a) (focusInv_step user peers st a h)

theorem focusInv_reachable (user : UserModel) (peers : List Peer) (st : AppState)
    (h : ReachableState user peers st) : FocusInvariant st := by
  obtain ⟨acts, rfl⟩ := h
  exact focusInv_run user peers acts initialState focusInv_initial

theorem applyClearEffect_active (chs : ChatMap) (cid : String)
    (sc : List StoredChat) (sm : List (TextMessage × String)) (chat : Chat)
    (hc : mget chs cid = some chat) (hpos : chat.unreadCount > 0) :
    applyClearEffect ⟨chs, some cid, sc, sm⟩ =
      ⟨mset chs cid { chat with unreadCount := 0 }, some cid,
       sc ++ [storableChat { chat with unreadCount := 0 }], sm⟩ := by
  unfold applyClearEffect
  show (match mget chs cid with
        | none => (⟨chs, some cid, sc, sm⟩ : AppState)
        | some chat =>
          if chat.unreadCount > 0 then
            ⟨mset chs cid { chat with unreadCount := 0 }, some cid,
             sc ++ [storableChat { chat with unreadCount := 0 }], sm⟩
          else ⟨chs, some cid, sc, sm⟩) = _
  rw [hc]
  simp [hpos]

theorem setActive_clears_persists (st : AppState) (cid : String) (chat : Chat)
    (hne : st.activeChatId ≠ some cid) (hc : mget st.chats cid = some chat)
    (hpos : chat.unreadCount > 0) :
    (setActiveChat cid st).savedChats =
      st.savedChats ++ [storableChat { chat with unreadCount := 0 }] ∧
    mget (setActiveChat cid st).chats cid = some { chat with unreadCount := 0 } := by
  unfold setActiveChat
  rw [if_neg hne]
  have hrepr : ({ st with activeChatId := some cid } : AppState) =
      ⟨st.chats, some cid, st.savedChats, st.savedMessages⟩ := rfl
  rw [hrepr, applyClearEffect_active st.chats cid st.savedChats st.savedMessages chat hc hpos]
  exact ⟨rfl, mget_mset_self _ _ _⟩


theorem handleAnswer_none_failed (user : UserModel) (peers : List Peer) :
    handleAnswer user peers none = .failed := rfl

theorem handleAnswer_answered (user : UserModel) (peers : List Peer)
    (p : HandshakePayload) (pp : Peer)
    (hfind : List.find? (fun q => q.signalingState = .haveLocalOffer) peers = some pp)
    (hans : p.sdpType = .answer) :
    handleAnswer user peers (some p) =
      .answered
        ((peers.map (fun q =>
          if q.id = pp.id then
            { q with
              id := p.senderId,
              name := p.senderName,
              publicKey := p.senderPublicKey,
              sharedSecret :=
                some (deriveSharedSecret user.privateKey p.senderPublicKey) }
          else q)).filter
          (fun q => q.id ≠ pp.id ∨ q.id = p.senderId)) := by
  simp only [handleAnswer, hfind]
  rw [if_pos hans]

theorem handleAnswer_answered_props (user : UserModel) (peers : List Peer)
    (p : HandshakePayload) (pp : Peer)
    (hfind : List.find? (fun q => q.signalingState = .haveLocalOffer) peers = some pp)
    (hans : p.sdpType = .answer) :
    ∃ ps, handleAnswer user peers (some p) = .answered ps ∧
      (∃ q ∈ ps, q.id = p.senderId ∧
        q.sharedSecret = some (deriveSharedSecret user.privateKey p.senderPublicKey) ∧
        q.name = p.senderName) ∧
      (p.senderId ≠ pp.id → ∀ q ∈ ps, q.id ≠ pp.id) := by
  refine ⟨_, handleAnswer_answered user peers p pp hfind hans, ?_, ?_⟩
  · have hmem : pp ∈ peers := List.mem_of_find?_eq_some hfind
    refine ⟨{ pp with
        id := p.senderId, name := p.senderName, publicKey := p.senderPublicKey,
        sharedSecret := some (deriveSharedSecret user.privateKey p.senderPublicKey) },
      ?_, rfl, rfl, rfl⟩
    rw [List.mem_filter]
    constructor
    · rw [List.mem_map]
      exact ⟨pp, hmem, by rw [if_pos rfl]⟩
    · simp
  · intro hne q hq
    rw [List.mem_filter] at hq
    obtain ⟨_, hpred⟩ := hq
    simp only [decide_eq_true_eq] at hpred
    rcases hpred with h1 | h1
    · exact h1
    · rw [h1]
      exact fun hh => hne hh

theorem handleOffer_unknown_offer (user : UserModel) (peers : List Peer)
    (p : HandshakePayload) (hoffer : p.sdpType = .offer)
    (hunknown : (peers.any fun q => q.id = p.senderId) = false) :
    handleOffer user peers (some p) =
      .ok (some
        (⟨.answer, user.id, user.name, user.publicKey⟩,
         (peers.filter (fun q => q.id ≠ p.senderId)) ++
           [⟨p.senderId, p.senderName, p.senderPublicKey, .connecting, .stable,
             some (deriveSharedSecret user.privateKey p.senderPublicKey)⟩])) := by
  simp only [handleOffer]
  rw [if_neg (by rw [hunknown]; exact Bool.false_ne_true), if_pos hoffer]

theorem handleOffer_known (user : UserModel) (peers : List Peer)
    (p : HandshakePayload)
    (hknown : (peers.any fun q => q.id = p.senderId) = true) :
    handleOffer user peers (some p) = .ok none := by
  simp only [handleOffer]
  rw [if_pos hknown]

theorem handleOffer_unknown_answer (user : UserModel) (peers : List Peer)
    (p : HandshakePayload) (hans : p.sdpType = .answer)
    (hunknown : (peers.any fun q => q.id = p.senderId) = false) :
    handleOffer user peers (some p) = .error () := by
  simp only [handleOffer]
  rw [if_neg (by rw [hunknown]; exact Bool.false_ne_true)]
  rw [if_neg (by rw [hans]; exact fun h => SdpType.noConfusion h)]

theorem handleAnswer_produces (user : UserModel) (peers : List Peer)
    (p : HandshakePayload) (hoffer : p.sdpType = .offer)
    (hunknown : (peers.any fun q => q.id = p.senderId) = false) :
    ∃ ps, handleAnswer user peers (some p) =
      .answerProduced ⟨.answer, user.id, user.name, user.publicKey⟩ ps := by
  match hfind : List.find? (fun q => q.signalingState = .haveLocalOffer) peers with
  | none =>
    simp only [handleAnswer, hfind, handleOffer_unknown_offer user peers p hoffer hunknown]
    exact ⟨_, rfl⟩
  | some pp =>
    simp only [handleAnswer, hfind]
    rw [if_neg (by rw [hoffer]; exact fun h => SdpType.noConfusion h)]
    simp only [handleOffer_unknown_offer user peers p hoffer hunknown]
    exact ⟨_, rfl⟩

theorem handleAnswer_ignored (user : UserModel) (peers : List Peer)
    (p : HandshakePayload)
    (hfind : List.find? (fun q => q.signalingState = .haveLocalOffer) peers = none)
    (hknown : (peers.any fun q => q.id = p.senderId) = true) :
    handleAnswer user peers (some p) = .ignored := by
  simp only [handleAnswer, hfind, handleOffer_known user peers p hknown]

theorem handleAnswer_failed_glare (user : UserModel) (peers : List Peer)
    (p : HandshakePayload) (pp : Peer)
    (hfind : List.find? (fun q => q.signalingState = .haveLocalOffer) peers = some pp)
    (hoffer : p.sdpType = .offer)
    (hknown : (peers.any fun q => q.id = p.senderId) = true) :
    handleAnswer user peers (some p) = .failed := by
  simp only [handleAnswer, hfind]
  rw [if_neg (by rw [hoffer]; exact fun h => SdpType.noConfusion h)]
  simp only [handleOffer_known user peers p hknown]

theorem handleAnswer_failed_answer_unknown (user : UserModel) (peers : List Peer)
    (p : HandshakePayload)
    (hfind : List.find? (fun q => q.signalingState = .haveLocalOffer) peers = none)
    (hans : p.sdpType = .answer)
    (hunknown : (peers.any fun q => q.id = p.senderId) = false) :
    handleAnswer user peers (some p) = .failed := by
  simp only [handleAnswer, hfind, handleOffer_unknown_answer user peers p hans hunknown]

theorem handleAnswer_failed_iff (user : UserModel) (peers : List Peer)
    (p : HandshakePayload) :
    handleAnswer user peers (some p) = .failed ↔
      ((∃ pp, List.find? (fun q => q.signalingState = .haveLocalOffer) peers = some pp) ∧
        p.sdpType = .offer ∧ (peers.any fun q => q.id = p.senderId) = true) ∨
      (List.find? (fun q => q.signalingState = .haveLocalOffer) peers = none ∧
        p.sdpType = .answer ∧ (peers.any fun q => q.id = p.senderId) = false) := by
  constructor
  · intro hfail
    match hfind : List.find? (fun q => q.signalingState = .haveLocalOffer) peers with
    | some pp =>
      match htyp : p.sdpType with
      | .answer =>
        rw [handleAnswer_answered user peers p pp hfind htyp] at hfail
        exact absurd hfail (by simp)
      | .offer =>
        match hkn : (peers.any fun q => q.id = p.senderId) with
        | true => exact Or.inl ⟨⟨pp, by rw [hfind]⟩, rfl, rfl⟩

        | false =>
          obtain ⟨ps, hps⟩ := handleAnswer_produces user peers p htyp hkn
          rw [hps] at hfail
          exact absurd hfail (by simp)
    | none =>
      match htyp : p.sdpType with
      | .answer =>
        match hkn : (peers.any fun q => q.id = p.senderId) with
        | true =>
          rw [handleAnswer_ignored user peers p hfind hkn] at hfail
          exact absurd hfail (by simp)
        | false => exact Or.inr ⟨by rw [hfind], rfl, rfl⟩
      | .offer =>
        match hkn : (peers.any fun q => q.id = p.senderId) with
        | true =>
          rw [handleAnswer_ignored user peers p hfind hkn] at hfail
          exact absurd hfail (by simp)
        | false =>
          obtain ⟨ps, hps⟩ := handleAnswer_produces user peers p htyp hkn
          rw [hps] at hfail
          exact absurd hfail (by simp)
  · intro hcond
    rcases hcond with ⟨⟨pp, hfind⟩, htyp, hkn⟩ | ⟨hfind, htyp, hkn⟩
    · exact handleAnswer_failed_glare user peers p pp hfind htyp hkn
    · exact handleAnswer_failed_answer_unknown user peers p hfind htyp hkn


theorem hexFlat_eq_map (l : List Nat) :
    l.flatMap byteToHexChars =
      (l.flatMap (fun b => [b / 16, b % 16])).map hexDigitChar := by
  induction l with
  | nil => rfl
  | cons b l ih =>
    simp only [List.flatMap_cons, List.map_append]
    rw [ih]
    rfl

theorem hexFlat_length (l : List Nat) :
    (l.flatMap (fun b => [b / 16, b % 16])).length = 2 * l.length := by
  induction l with
  | nil => rfl
  | cons b l ih =>
    simp only [List.flatMap_cons, List.length_append, List.length_cons, ih]
    simp
    omega

theorem hexFlat_digits_lt (l : List Nat) (h : isByteList l) :
    ∀ d ∈ l.flatMap (fun b => [b / 16, b % 16]), d < 16 := by
  intro d hd
  simp only [List.mem_flatMap] at hd
  obtain ⟨b, hb, hmem⟩ := hd
  have hblt := h b hb
  simp at hmem
  rcases hmem with rfl | rfl <;> omega

theorem hexValClamp_lt (c : Char) : hexValClamp c < 16 := by
  unfold hexValClamp
  have := Nat.min_le_right (List.findIdx (fun d => d = c) (("0123456789abcdef").data)) 15
  omega

theorem hexValClamp_hexDigitChar {v : Nat} (h : v < 16) :
    hexValClamp (hexDigitChar v) = v := by
  have : ∀ t : Fin 16, hexValClamp (hexDigitChar t.val) = t.val := by decide
  exact this ⟨v, h⟩

theorem foldl_clamp_lt (l : List Char) : ∀ a : Nat,
    l.foldl (fun a c => a * 16 + hexValClamp c) a < (a + 1) * 16 ^ l.length := by
  induction l with
  | nil => intro a; simp
  | cons c l ih =>
    intro a
    have h1 := ih (a * 16 + hexValClamp c)
    have hc := hexValClamp_lt c
    have h2 : (a * 16 + hexValClamp c + 1) * 16 ^ l.length ≤ (a + 1) * 16 ^ (c :: l).length := by
      simp only [List.length_cons, pow_succ]
      have h3 : a * 16 + hexValClamp c + 1 ≤ (a + 1) * 16 := by omega
      calc (a * 16 + hexValClamp c + 1) * 16 ^ l.length
          ≤ (a + 1) * 16 * 16 ^ l.length := Nat.mul_le_mul_right _ h3
        _ = (a + 1) * (16 ^ l.length * 16) := by ring
    simp only [List.foldl_cons]
    exact Nat.lt_of_lt_of_le h1 h2

theorem idVal_lt (s : String) (h : s.data.length ≤ 16) : idVal s < 16 ^ 16 := by
  unfold idVal
  have h1 := foldl_clamp_lt s.data 0
  simp only [Nat.zero_add, Nat.one_mul] at h1
  have h2 : (16 : Nat) ^ s.data.length ≤ 16 ^ 16 :=
    Nat.pow_le_pow_right (by norm_num) h
  omega

theorem foldl_digits_shift (l : List Nat) : ∀ a : Nat,
    l.foldl (fun a d => a * 16 + d) a =
      a * 16 ^ l.length + l.foldl (fun a d => a * 16 + d) 0 := by
  induction l with
  | nil => intro a; simp
  | cons d l ih =>
    intro a
    simp only [List.foldl_cons, List.length_cons, Nat.zero_mul, Nat.zero_add]
    rw [ih (a * 16 + d), ih d]
    ring

theorem foldl_digits_lt (l : List Nat) (h : ∀ d ∈ l, d < 16) :
    l.foldl (fun a d => a * 16 + d) 0 < 16 ^ l.length := by
  induction l with
  | nil => simp
  | cons d l ih =>
    simp only [List.foldl_cons, List.length_cons, Nat.zero_mul, Nat.zero_add]
    rw [foldl_digits_shift]
    have h1 := ih (fun x hx => h x (by simp [hx]))
    have h2 : d < 16 := h d (by simp)
    have h3 : d * 16 ^ l.length + 16 ^ l.length ≤ 16 ^ (l.length + 1) := by
      have : (d + 1) * 16 ^ l.length ≤ 16 * 16 ^ l.length :=
        Nat.mul_le_mul_right _ (by omega)
      calc d * 16 ^ l.length + 16 ^ l.length = (d + 1) * 16 ^ l.length := by ring
        _ ≤ 16 * 16 ^ l.length := this
        _ = 16 ^ (l.length + 1) := by rw [pow_succ]; ring
    omega

theorem foldl_digits_inj : ∀ (ds es : List Nat), ds.length = es.length →
    (∀ d ∈ ds, d < 16) → (∀ e ∈ es, e < 16) →
    ds.foldl (fun a d => a * 16 + d) 0 = es.foldl (fun a d => a * 16 + d) 0 →
    ds = es := by
  intro ds
  induction ds with
  | nil =>
    intro es hlen _ _ _
    match es with
    | [] => rfl
    | e :: es => simp at hlen
  | cons d ds ih =>
    intro es hlen hds hes heq
    match es with
    | [] => simp at hlen
    | e :: es =>
      simp only [List.length_cons] at hlen
      have hlen' : ds.length = es.length := by omega
      simp only [List.foldl_cons, Nat.zero_mul, Nat.zero_add] at heq
      rw [foldl_digits_shift ds d, foldl_digits_shift es e, hlen'] at heq
      have hrd := foldl_digits_lt ds (fun x hx => hds x (by simp [hx]))
      have hre := foldl_digits_lt es (fun x hx => hes x (by simp [hx]))
      rw [hlen'] at hrd
      have hde : d = e := by
        by_contra hne
        rcases Nat.lt_or_ge d e with hlt | hge
        · have : d * 16 ^ es.length + 16 ^ es.length ≤ e * 16 ^ es.length := by
            have : (d + 1) * 16 ^ es.length ≤ e * 16 ^ es.length :=
              Nat.mul_le_mul_right _ (by omega)
            calc d * 16 ^ es.length + 16 ^ es.length
                = (d + 1) * 16 ^ es.length := by ring
              _ ≤ e * 16 ^ es.length := this
          omega
        · have hgt : e < d := by omega
          have : e * 16 ^ es.length + 16 ^ es.length ≤ d * 16 ^ es.length := by
            have : (e + 1) * 16 ^ es.length ≤ d * 16 ^ es.length :=
              Nat.mul_le_mul_right _ (by omega)
            calc e * 16 ^ es.length + 16 ^ es.length
                = (e + 1) * 16 ^ es.length := by ring
              _ ≤ d * 16 ^ es.length := this
          omega
      subst hde
      have hr : ds.foldl (fun a d => a * 16 + d) 0 = es.foldl (fun a d => a * 16 + d) 0 := by
        omega
      rw [ih es hlen' (fun x hx => hds x (by simp [hx]))
        (fun x hx => hes x (by simp [hx])) hr]

theorem genId_digits (k : EcPublicJwk) :
    ∃ ds : List Nat, ds.length = 16 ∧ (∀ d ∈ ds, d < 16) ∧
      (generateUserIdFromPublicKey k).data = ds.map hexDigitChar := by
  refine ⟨((sha256 (utf8Encode (stringifyEcJwk k))).flatMap
    (fun b => [b / 16, b % 16])).take 16, ?_, ?_, ?_⟩
  · rw [List.length_take, hexFlat_length, sha256_length]
    omega
  · intro d hd
    exact hexFlat_digits_lt _ (sha256_bytes_lt _) d (List.take_subset _ _ hd)
  · show ((sha256 (utf8Encode (stringifyEcJwk k))).flatMap byteToHexChars).take 16 = _
    rw [hexFlat_eq_map, List.map_take]

theorem foldl_clamp_map_digits (ds : List Nat) (h : ∀ d ∈ ds, d < 16) : ∀ a : Nat,
    (ds.map hexDigitChar).foldl (fun a c => a * 16 + hexValClamp c) a =
      ds.foldl (fun a d => a * 16 + d) a := by
  induction ds with
  | nil => intro a; rfl
  | cons d ds ih =>
    intro a
    simp only [List.map_cons, List.foldl_cons]
    rw [hexValClamp_hexDigitChar (h d (by simp))]
    exact ih (fun x hx => h x (by simp [hx])) _

theorem idVal_map_digits (ds : List Nat) (h : ∀ d ∈ ds, d < 16) :
    idVal ⟨ds.map hexDigitChar⟩ = ds.foldl (fun a d => a * 16 + d) 0 := by
  unfold idVal
  rw [data_mk]
  exact foldl_clamp_map_digits ds h 0

theorem jwkOfNat_injective : Function.Injective jwkOfNat := by
  intro a b h
  have hx : (jwkOfNat a).x = (jwkOfNat b).x := by rw [h]
  simp only [jwkOfNat] at hx
  have hdata : (List.replicate a 'a') = (List.replicate b 'a') :=
    congrArg String.data hx
  have := congrArg List.length hdata
  simpa using this

theorem genId_collision : ∃ k1 k2 : EcPublicJwk, k1 ≠ k2 ∧
    generateUserIdFromPublicKey k1 = generateUserIdFromPublicKey k2 := by
  haveI : Infinite EcPublicJwk := Infinite.of_injective jwkOfNat jwkOfNat_injective
  have hlen : ∀ k : EcPublicJwk, (generateUserIdFromPublicKey k).data.length ≤ 16 := by
    intro k
    obtain ⟨ds, hl, _, hd⟩ := genId_digits k
    rw [hd, List.length_map, hl]
  obtain ⟨k1, k2, hne, hf⟩ := Finite.exists_ne_map_eq_of_infinite
    (fun k : EcPublicJwk =>
      (⟨idVal (generateUserIdFromPublicKey k), idVal_lt _ (hlen k)⟩ : Fin (16 ^ 16)))
  refine ⟨k1, k2, hne, ?_⟩
  have hv : idVal (generateUserIdFromPublicKey k1) =
      idVal (generateUserIdFromPublicKey k2) := by
    have := congrArg Fin.val hf
    simpa using this
  obtain ⟨ds1, hl1, hb1, hd1⟩ := genId_digits k1
  obtain ⟨ds2, hl2, hb2, hd2⟩ := genId_digits k2
  have he1 : generateUserIdFromPublicKey k1 = ⟨ds1.map hexDigitChar⟩ := by
    rw [← hd1, string_mk_data]
  have he2 : generateUserIdFromPublicKey k2 = ⟨ds2.map hexDigitChar⟩ := by
    rw [← hd2, string_mk_data]
  rw [he1, he2, idVal_map_digits ds1 hb1, idVal_map_digits ds2 hb2] at hv
  have : ds1 = ds2 := foldl_digits_inj ds1 ds2 (by omega) hb1 hb2 hv
  rw [he1, he2, this]


theorem atob_btoa (s t : String) (h : btoaStr s = some t) : atobStr t = some s := by
  unfold btoaStr at h
  split at h
  · rename_i hall
    injection h with h'
    subst h'
    unfold atobStr
    rw [data_mk]
    have hb : isByteList (s.data.map Char.toNat) := by
      intro b hbm
      rw [List.mem_map] at hbm
      obtain ⟨c, hcm, rfl⟩ := hbm
      have := List.all_eq_true.mp hall c hcm
      simpa using this
    rw [b64_roundtrip _ hb]
    show some ⟨List.map Char.ofNat (List.map Char.toNat s.data)⟩ = some s
    rw [List.map_map]
    have hcc : (Char.ofNat ∘ Char.toNat) = fun c : Char => c :=
      funext fun c => Char.ofNat_toNat c
    rw [hcc, List.map_id', string_mk_data]
  · exact Option.noConfusion h

theorem mget_mem (m : ChatMap) (k : String) (c : Chat) (h : mget m k = some c) :
    ∃ p ∈ m, p.2 = c := by
  induction m with
  | nil => exact absurd h (by simp [mget])
  | cons a as ih =>
    rw [mget_cons] at h
    by_cases hk : a.1 = k
    · rw [if_pos hk] at h
      injection h with h'
      exact ⟨a, List.mem_cons_self a as, h'⟩
    · rw [if_neg hk] at h
      obtain ⟨p, hp, he⟩ := ih h
      exact ⟨p, List.mem_cons_of_mem a hp, he⟩

theorem sorted_snoc (l : List TextMessage) (msg : TextMessage)
    (hs : List.Sorted tmLe l) (hle : ∀ x ∈ l, tmLe x msg) :
    List.Sorted tmLe (l ++ [msg]) := by
  show List.Pairwise tmLe (l ++ [msg])
  rw [List.pairwise_append]
  refine ⟨hs, by simp, ?_⟩
  intro a ha b hb
  rw [List.mem_singleton] at hb
  subst hb
  exact hle a ha

theorem receive_insert_parts (active : Option String) (senderId : String)
    (m : TextMessage) (chats : ChatMap) (chat : Chat)
    (hc : mget chats (targetChatId senderId m) = some chat)
    (hfresh : ¬ (chat.messages.any fun x => x.id = m.id) = true) :
    (handleNewMessage active senderId (.text m) chats).1 =
      mset chats (targetChatId senderId m)
        { chat with
          messages := sortByTimestamp (chat.messages ++ [m]),
          unreadCount :=
            if some (targetChatId senderId m) ≠ active then chat.unreadCount + 1
            else chat.unreadCount } := by
  rw [handleNewMessage_insert active senderId m chats chat hc hfresh]

theorem receive_focused_unread (active : Option String) (senderId : String)
    (m : TextMessage) (chats : ChatMap) (chat : Chat)
    (hc : mget chats (targetChatId senderId m) = some chat)
    (hfoc : active = some (targetChatId senderId m)) :
    ∀ c', mget (handleNewMessage active senderId (.text m) chats).1
        (targetChatId senderId m) = some c' →
      c'.unreadCount = chat.unreadCount := by
  intro c' hc'
  by_cases hdup : (chat.messages.any fun x => x.id = m.id) = true
  · rw [handleNewMessage_dup active senderId m chats chat hc hdup] at hc'
    have hc'' : mget chats (targetChatId senderId m) = some c' := hc'
    rw [hc] at hc''
    injection hc'' with h
    rw [← h]
  · rw [receive_insert_parts active senderId m chats chat hc hdup,
      mget_mset_self] at hc'
    injection hc' with h
    rw [← h]
    show (if some (targetChatId senderId m) ≠ active then chat.unreadCount + 1
          else chat.unreadCount) = chat.unreadCount
    rw [if_neg (fun hne => hne hfoc.symm)]

theorem applyClearEffect_zero (chs : ChatMap) (cid : String)
    (sc : List StoredChat) (sm : List (TextMessage × String)) (chat : Chat)
    (hc : mget chs cid = some chat) (h0 : chat.unreadCount = 0) :
    applyClearEffect ⟨chs, some cid, sc, sm⟩ = ⟨chs, some cid, sc, sm⟩ := by
  unfold applyClearEffect
  show (match mget chs cid with
        | none => (⟨chs, some cid, sc, sm⟩ : AppState)
        | some chat =>
          if chat.unreadCount > 0 then
            ⟨mset chs cid { chat with unreadCount := 0 }, some cid,
             sc ++ [storableChat { chat with unreadCount := 0 }], sm⟩
          else ⟨chs, some cid, sc, sm⟩) = _
  rw [hc]
  simp [h0]

theorem setActive_chats_zero (cid : String) (st : AppState) (chat : Chat)
    (hc : mget st.chats cid = some chat) (h0 : chat.unreadCount = 0) :
    setActiveChat cid st = { st with activeChatId := some cid } := by
  unfold setActiveChat
  split
  · rename_i heq
    have hsame : ({ st with activeChatId := some cid } : AppState) =
        { st with activeChatId := st.activeChatId } := by rw [heq]
    rw [hsame]
  · have hrepr : ({ st with activeChatId := some cid } : AppState) =
        ⟨st.chats, some cid, st.savedChats, st.savedMessages⟩ := rfl
    rw [hrepr, applyClearEffect_zero st.chats cid st.savedChats st.savedMessages chat hc h0]

theorem selectChat_known (user : UserModel) (peers : List Peer) (cid : String)
    (st : AppState) (chat : Chat) (hc : mget st.chats cid = some chat) :
    selectChat user peers cid st = setActiveChat cid st := by
  simp only [selectChat]
  split
  · rename_i peer heq hfind
    rw [hc] at heq
    exact absurd heq (by simp)
  · rfl

theorem generateGroupInviteCode_eq (chats : ChatMap) (gid : String) (chat : Chat)
    (jwk : OctJwk) (hc : mget chats gid = some chat) (hty : chat.type = .group)
    (hjwk : chat.groupKeyJwk = some jwk) :
    generateGroupInviteCode chats gid =
      btoaStr (stringifyGroupPayload ⟨chat.id, chat.name, jwk⟩) := by
  simp only [generateGroupInviteCode, hc]
  rw [if_pos hty]
  simp only [hjwk]


/-! ## The claims -/

/-- C1: for every plaintext and symmetric key, decrypting the output of
`encryptTextMessage` with the same key and the produced nonce returns the
plaintext; decrypting it with a different key fails (`DecryptionFailed`,
modelled as `none`); and at the authenticated-encryption layer a ciphertext
decrypts successfully only when it is the genuine encryption of the returned
plaintext under that key and IV, so any tampered ciphertext is rejected
rather than decrypted. -/
theorem C1_encrypt_decrypt (content : String) (key key' : SymKey) (iv : List Nat)
    (hk : isByteList key.material) (hiv : isByteList iv) :
    decryptTextMessage (encryptTextMessage content key iv).encryptedContent
      (encryptTextMessage content key iv).iv key = some content ∧
    (key'.material ≠ key.material →
      decryptTextMessage (encryptTextMessage content key iv).encryptedContent
        (encryptTextMessage content key iv).iv key' = none) ∧
    (∀ ct pt : List Nat, aesGcmDecrypt key iv ct = some pt →
      ct = aesGcmEncrypt key iv pt) :=
  ⟨decryptTextMessage_roundtrip content key iv hk hiv,
   fun hne => decryptTextMessage_wrong_key content key key' iv hk hiv hne,
   fun ct pt h => aesGcm_complete key iv ct pt h⟩

/-- C1 at a concrete key, IV and plaintext. -/
theorem C1_encrypt_decrypt_witness :
    decryptTextMessage (encryptTextMessage ("hi") ⟨[1, 2]⟩ [7, 8, 9]).encryptedContent
      (encryptTextMessage ("hi") ⟨[1, 2]⟩ [7, 8, 9]).iv ⟨[1, 2]⟩ = some ("hi") ∧
    decryptTextMessage (encryptTextMessage ("hi") ⟨[1, 2]⟩ [7, 8, 9]).encryptedContent
      (encryptTextMessage ("hi") ⟨[1, 2]⟩ [7, 8, 9]).iv ⟨[3]⟩ = none := by
  have h := C1_encrypt_decrypt ("hi") ⟨[1, 2]⟩ ⟨[3]⟩ [7, 8, 9] (by decide) (by decide)
  exact ⟨h.1, h.2.1 (by decide)⟩

/-- C2: the ECDH agreement is symmetric: deriving from A's private key and
B's public key yields the same symmetric key as deriving from B's private key
and A's public key, for every pair of key pairs. -/
theorem C2_deriveSharedSecret_symm (aPriv bPriv : Nat) :
    deriveSharedSecret aPriv (publicOfPrivate bPriv) =
      deriveSharedSecret bPriv (publicOfPrivate aPriv) := by
  unfold deriveSharedSecret publicOfPrivate
  have h : (ecdhG ^ bPriv % ecdhP) ^ aPriv % ecdhP =
      (ecdhG ^ aPriv % ecdhP) ^ bPriv % ecdhP := by
    rw [← Nat.pow_mod, ← Nat.pow_mod, ← pow_mul, ← pow_mul, Nat.mul_comm]
  rw [h]

/-- C3 (amended): the derived user id is exactly the first sixteen hex
characters of SHA-256 of the JSON serialization of the public key, and the
derivation is deterministic: keys with equal serializations get equal ids.
Distinctness of ids for distinct keys, however, cannot hold (see the
counterexample), so the claim's collision-freeness part is corrected to
determinism plus the id formula. -/
theorem C3_id_formula (k k1 k2 : EcPublicJwk)
    (h : stringifyEcJwk k1 = stringifyEcJwk k2) :
    generateUserIdFromPublicKey k = specDeriveId k ∧
    generateUserIdFromPublicKey k1 = generateUserIdFromPublicKey k2 := by
  refine ⟨rfl, ?_⟩
  unfold generateUserIdFromPublicKey
  rw [h]

/-- C3 at a concrete public key. -/
theorem C3_id_formula_witness :
    generateUserIdFromPublicKey ⟨("P-384"), ("EC"), ("xx"), ("yy")⟩ =
      specDeriveId ⟨("P-384"), ("EC"), ("xx"), ("yy")⟩ ∧
    generateUserIdFromPublicKey ⟨("P-384"), ("EC"), ("xx"), ("yy")⟩ =
      generateUserIdFromPublicKey ⟨("P-384"), ("EC"), ("xx"), ("yy")⟩ :=
  C3_id_formula ⟨("P-384"), ("EC"), ("xx"), ("yy")⟩ ⟨("P-384"), ("EC"), ("xx"), ("yy")⟩
    ⟨("P-384"), ("EC"), ("xx"), ("yy")⟩ rfl

/-- C3 is refuted in its distinctness part: the id space has at most `16 ^ 16`
elements while the public-key space is infinite, so two distinct public keys
share an id. -/
theorem C3_distinct_keys_same_id :
    ¬ (∀ k1 k2 : EcPublicJwk, k1 ≠ k2 →
        generateUserIdFromPublicKey k1 ≠ generateUserIdFromPublicKey k2) := by
  intro hinj
  obtain ⟨k1, k2, hne, heq⟩ := genId_collision
  exact hinj k1 k2 hne heq

/-- C4: receive is duplicate-safe per message id: a text message whose id
already occurs in the target conversation leaves the conversation map
unchanged and persists nothing; receiving a fresh message and then receiving
it again grows the conversation by exactly one (not two), the second receive
being a complete no-op. -/
theorem C4_receive_idempotent (active : Option String) (senderId : String)
    (m : TextMessage) (chats : ChatMap) (chat : Chat)
    (hc : mget chats (targetChatId senderId m) = some chat) :
    ((chat.messages.any fun x => x.id = m.id) = true →
      handleNewMessage active senderId (.text m) chats = (chats, [])) ∧
    (¬ (chat.messages.any fun x => x.id = m.id) = true →
      messageCount (handleNewMessage active senderId (.text m) chats).1
          (targetChatId senderId m) =
        messageCount chats (targetChatId senderId m) + 1 ∧
      handleNewMessage active senderId (.text m)
          (handleNewMessage active senderId (.text m) chats).1 =
        ((handleNewMessage active senderId (.text m) chats).1, [])) := by
  constructor
  · intro hdup
    exact handleNewMessage_dup active senderId m chats chat hc hdup
  · intro hfresh
    constructor
    · rw [receive_insert_parts active senderId m chats chat hc hfresh]
      unfold messageCount
      rw [mget_mset_self, hc]
      show (sortByTimestamp (chat.messages ++ [m])).length = chat.messages.length + 1
      rw [sortByTimestamp_length, List.length_append]
      rfl
    · rw [receive_insert_parts active senderId m chats chat hc hfresh]
      apply handleNewMessage_dup
      · exact mget_mset_self _ _ _
      · rw [List.any_eq_true]
        refine ⟨m, ?_, by simp⟩
        show m ∈ sortByTimestamp (chat.messages ++ [m])
        rw [sortByTimestamp_mem]
        exact List.mem_append_right _ (by simp)

/-- C4 at a concrete conversation: receiving a message whose id is already
stored is a no-op. -/
theorem C4_receive_idempotent_witness :
    handleNewMessage none ("alice") (.text sampleMsg)
      [(("alice"), sampleChatAlice)] = ([(("alice"), sampleChatAlice)], []) :=
  (C4_receive_idempotent none ("alice") sampleMsg [(("alice"), sampleChatAlice)]
    sampleChatAlice (by decide)).1 (by decide)

/-- C5 (amended): receive re-sorts, so after an insertion via
`handleNewMessage` the target conversation is sorted by timestamp; `send`
however pushes the fresh message without re-sorting, so its result is sorted
only under the extra assumptions that the conversation was sorted and that no
stored timestamp exceeds the sending clock — out-of-order sends violate the
invariant (see the counterexample). -/
theorem C5_sorted_insertions (active : Option String) (senderId : String)
    (m : TextMessage) (chats : ChatMap) (chat : Chat)
    (user : UserModel) (peers : List Peer) (chats2 : ChatMap) (aId : String)
    (content freshId : String) (now : Nat) (iv : List Nat)
    (hc : mget chats (targetChatId senderId m) = some chat)
    (hfresh : ¬ (chat.messages.any fun x => x.id = m.id) = true)
    (hsorted : ∀ p ∈ chats2, List.Sorted tmLe p.2.messages)
    (hmono : ∀ p ∈ chats2, ∀ x ∈ p.2.messages, x.timestamp ≤ now) :
    (∀ c', mget (handleNewMessage active senderId (.text m) chats).1
        (targetChatId senderId m) = some c' → List.Sorted tmLe c'.messages) ∧
    (∀ c', mget (sendMessage user peers chats2 (some aId) content freshId now iv).1
        aId = some c' → List.Sorted tmLe c'.messages) := by
  constructor
  · intro c' h
    rw [receive_insert_parts active senderId m chats chat hc hfresh,
      mget_mset_self] at h
    injection h with h'
    rw [← h']
    show List.Sorted tmLe (sortByTimestamp (chat.messages ++ [m]))
    exact sortByTimestamp_sorted _
  · rcases sendMessage_cases user peers chats2 aId content freshId now iv with
      heq | ⟨chat2, ec, ivs, hg, heq⟩
    · intro c' h
      rw [heq] at h
      obtain ⟨p, hp, hpe⟩ := mget_mem chats2 aId c' h
      rw [← hpe]
      exact hsorted p hp
    · intro c' h
      rw [heq, mget_mset_self] at h
      injection h with h'
      rw [← h']
      show List.Sorted tmLe
        (chat2.messages ++ [⟨freshId, user.id, chat2.id, ec, ivs, now⟩])
      obtain ⟨p, hp, hpe⟩ := mget_mem chats2 aId chat2 hg
      apply sorted_snoc
      · have hps := hsorted p hp
        rw [hpe] at hps
        exact hps
      · intro x hx
        exact hmono p hp x (by rw [hpe]; exact hx)

/-- C5 at a concrete conversation: the message list after a send at a clock
value past every stored timestamp stays sorted. -/
theorem C5_sorted_insertions_witness : List.Sorted tmLe sampleSentChat.messages :=
  (C5_sorted_insertions none ("alice") sampleFreshMsg
      [(("alice"), sampleChatAlice)] sampleChatAlice sampleUser []
      [(("group-g"), sampleGroupChat)] ("group-g") ("") ("m9") 100 []
      (by decide) (by decide) (by decide) (by decide)).2 sampleSentChat (by decide)

/-- C5 is refuted for `send` as claimed: `sendMessage` appends without
re-sorting, so sending into the sample group conversation at clock 50, older
than the stored message's timestamp 100, leaves the list unsorted. -/
theorem C5_send_unsorted :
    ¬ (∀ (user : UserModel) (peers : List Peer) (chats : ChatMap)
        (activeChatId : Option String) (content freshId : String) (now : Nat)
        (iv : List Nat) (aId : String) (c' : Chat),
        mget (sendMessage user peers chats activeChatId content freshId now iv).1
            aId = some c' →
        List.Sorted tmLe c'.messages) := by
  intro h
  exact absurd
    (h sampleUser [] [(("group-g"), sampleGroupChat)] (some ("group-g")) ("")
      ("m9") 50 [] ("group-g") sampleLateChat (by decide))
    (by decide)

/-- C6 (amended): with a session awaiting an answer (`have-local-offer`),
`handleAnswer` applies an answer payload to it, derives the shared secret and
replaces the session's temporary peer id with the sender's real id; with no
session awaiting an answer, an offer from an unknown sender is routed to the
responder path and an answer code is produced; an undecodable payload fails;
and the call fails exactly when an offer arrives from an already-known sender
while a local offer is pending, or an answer arrives with no pending local
offer from an unknown sender — but an answer from an already-known sender
with no pending local offer is silently ignored rather than failed, so the
claim's "fails exactly when the payload can be handled neither way" is
corrected by this case split. -/
theorem C6_handshake (user : UserModel) (peers : List Peer) (p : HandshakePayload) :
    (∀ pp, List.find? (fun q => q.signalingState = .haveLocalOffer) peers = some pp →
      p.sdpType = .answer →
      ∃ ps, handleAnswer user peers (some p) = .answered ps ∧
        (∃ q ∈ ps, q.id = p.senderId ∧
          q.sharedSecret = some (deriveSharedSecret user.privateKey p.senderPublicKey) ∧
          q.name = p.senderName) ∧
        (p.senderId ≠ pp.id → ∀ q ∈ ps, q.id ≠ pp.id)) ∧
    (p.sdpType = .offer → (peers.any fun q => q.id = p.senderId) = false →
      ∃ ps, handleAnswer user peers (some p) =
        .answerProduced ⟨.answer, user.id, user.name, user.publicKey⟩ ps) ∧
    handleAnswer user peers none = .failed ∧
    (handleAnswer user peers (some p) = .failed ↔
      ((∃ pp, List.find? (fun q => q.signalingState = .haveLocalOffer) peers = some pp) ∧
        p.sdpType = .offer ∧ (peers.any fun q => q.id = p.senderId) = true) ∨
      (List.find? (fun q => q.signalingState = .haveLocalOffer) peers = none ∧
        p.sdpType = .answer ∧ (peers.any fun q => q.id = p.senderId) = false)) := by
  refine ⟨?_, ?_, rfl, handleAnswer_failed_iff user peers p⟩
  · intro pp hfind hans
    exact handleAnswer_answered_props user peers p pp hfind hans
  · intro hoffer hunknown
    exact handleAnswer_produces user peers p hoffer hunknown

/-- C6 is refuted in its no-pending-session arm: an answer payload from an
already-known sender with no local offer outstanding is neither routed to the
responder path producing an answer code nor failed — it is silently ignored. -/
theorem C6_known_answer_ignored :
    ¬ (∀ (user : UserModel) (peers : List Peer) (p : HandshakePayload),
        List.find? (fun q => q.signalingState = .haveLocalOffer) peers = none →
        (∃ a ps, handleAnswer user peers (some p) = .answerProduced a ps) ∨
          handleAnswer user peers (some p) = .failed) := by
  intro h
  rcases h sampleUser [samplePeer1] ⟨.answer, ("p1"), ("PeerOne"), 10⟩ (by decide)
    with ⟨a, ps, hx⟩ | hx
  · rw [show handleAnswer sampleUser [samplePeer1]
        (some ⟨.answer, ("p1"), ("PeerOne"), 10⟩) = .ignored from by decide] at hx
    exact HandshakeOutcome.noConfusion hx
  · exact absurd hx (by decide)

/-- C7: a group invite code produced by `generateGroupInviteCode` round-trips
through `joinGroup`: the joining side gains a local group conversation with
the same group id, the same group name and the same exported key JWK, whose
imported group key has key material equal to the original group key's. -/
theorem C7_invite_roundtrip (chats : ChatMap) (gid : String) (chat : Chat)
    (jwk : OctJwk) (user : UserModel) (st : AppState) (code : String)
    (hc : mget chats gid = some chat)
    (hty : chat.type = .group)
    (hjwk : chat.groupKeyJwk = some jwk)
    (hkb : isByteList jwk.k)
    (hcode : generateGroupInviteCode chats gid = some code)
    (hnew : mget st.chats chat.id = none) :
    ∃ g, mget (joinGroup user code st).chats chat.id = some g ∧
      g.id = chat.id ∧ g.name = chat.name ∧ g.groupKeyJwk = some jwk ∧
      g.groupKey = some (importSymmetricKey jwk) ∧
      ∀ k0, jwk = exportSymmetricKey k0 → g.groupKey = some k0 := by
  rw [generateGroupInviteCode_eq chats gid chat jwk hc hty hjwk] at hcode
  have hatob := atob_btoa _ _ hcode
  unfold joinGroup
  rw [hatob]
  split
  · rename_i hx
    rw [show Option.bind (some (stringifyGroupPayload ⟨chat.id, chat.name, jwk⟩))
        parseGroupPayload =
        parseGroupPayload (stringifyGroupPayload ⟨chat.id, chat.name, jwk⟩) from rfl,
      parse_stringify ⟨chat.id, chat.name, jwk⟩ hkb] at hx
    exact Option.noConfusion hx
  · rename_i p hx
    rw [show Option.bind (some (stringifyGroupPayload ⟨chat.id, chat.name, jwk⟩))
        parseGroupPayload =
        parseGroupPayload (stringifyGroupPayload ⟨chat.id, chat.name, jwk⟩) from rfl,
      parse_stringify ⟨chat.id, chat.name, jwk⟩ hkb] at hx
    injection hx with hx'
    subst hx'
    rw [show (⟨chat.id, chat.name, jwk⟩ : GroupInvitePayload).groupId = chat.id from rfl,
      show (⟨chat.id, chat.name, jwk⟩ : GroupInvitePayload).groupName = chat.name from rfl,
      show (⟨chat.id, chat.name, jwk⟩ : GroupInvitePayload).key = jwk from rfl,
      hnew, if_neg (by decide)]
    rw [setActive_chats_zero chat.id _
      ⟨chat.id, chat.name, .group, [], 0, [⟨user.id, user.name⟩],
       some (importSymmetricKey jwk), some jwk⟩
      (mget_mset_self _ _ _) rfl]
    refine ⟨⟨chat.id, chat.name, .group, [], 0, [⟨user.id, user.name⟩],
      some (importSymmetricKey jwk), some jwk⟩,
      mget_mset_self _ _ _, rfl, rfl, rfl, rfl, ?_⟩
    intro k0 he
    rw [he]
    rfl

/-- C7 at the sample group conversation and its generated invite code. -/
theorem C7_invite_roundtrip_witness :
    ∃ g, mget (joinGroup sampleUser sampleInviteCode initialState).chats
        sampleGroupChat.id = some g ∧
      g.id = sampleGroupChat.id ∧ g.name = sampleGroupChat.name ∧
      g.groupKeyJwk = some ⟨[7]⟩ ∧
      g.groupKey = some (importSymmetricKey ⟨[7]⟩) ∧
      ∀ k0, (⟨[7]⟩ : OctJwk) = exportSymmetricKey k0 → g.groupKey = some k0 :=
  C7_invite_roundtrip [(("group-g"), sampleGroupChat)] ("group-g") sampleGroupChat
    ⟨[7]⟩ sampleUser initialState sampleInviteCode (by decide) (by decide)
    (by decide) (by decide) (by decide) (by decide)

/-- C8 (amended): the provable direction of the unread invariant: in every
reachable state the focused conversation has a zero unread count; receive
does not change the unread count of the focused conversation; and focusing a
conversation with a positive unread count clears it to zero and persists the
cleared record. The claimed converse — zero unread count implies the
conversation is focused — is false (see the counterexample). -/
theorem C8_unread_focus (user : UserModel) (peers : List Peer) (st : AppState)
    (hreach : ReachableState user peers st) :
    FocusInvariant st ∧
    (∀ senderId m chat, mget st.chats (targetChatId senderId m) = some chat →
      st.activeChatId = some (targetChatId senderId m) →
      ∀ c', mget (applyAction user peers st (.receive senderId (.text m))).chats
          (targetChatId senderId m) = some c' →
        c'.unreadCount = chat.unreadCount) ∧
    (∀ cid chat, mget st.chats cid = some chat → st.activeChatId ≠ some cid →
      chat.unreadCount > 0 →
      (applyAction user peers st (.select cid)).savedChats =
        st.savedChats ++ [storableChat { chat with unreadCount := 0 }] ∧
      mget (applyAction user peers st (.select cid)).chats cid =
        some { chat with unreadCount := 0 }) := by
  refine ⟨focusInv_reachable user peers st hreach, ?_, ?_⟩
  · intro senderId m chat hc hfoc c' hc'
    exact receive_focused_unread st.activeChatId senderId m st.chats chat hc hfoc c' hc'
  · intro cid chat hc hne hpos
    have hsel : applyAction user peers st (.select cid) = setActiveChat cid st := by
      show selectChat user peers cid st = setActiveChat cid st
      exact selectChat_known user peers cid st chat hc
    rw [hsel]
    exact setActive_clears_persists st cid chat hne hc hpos

/-- C8's invariant at a concrete reachable state. -/
theorem C8_unread_focus_witness :
    FocusInvariant (runActions sampleUser [samplePeer1] [.select ("p1")] initialState) :=
  (C8_unread_focus sampleUser [samplePeer1]
    (runActions sampleUser [samplePeer1] [.select ("p1")] initialState)
    ⟨[.select ("p1")], rfl⟩).1

/-- C8 is refuted in its only-if direction: select one peer conversation,
then another — a reachable state in which the first conversation has a zero
unread count but is no longer the focused one. -/
theorem C8_zero_unread_not_focused :
    ¬ (∀ (user : UserModel) (peers : List Peer) (st : AppState),
        ReachableState user peers st →
        ∀ cid chat, mget st.chats cid = some chat →
          (chat.unreadCount = 0 ↔ st.activeChatId = some cid)) := by
  intro h
  have hx := h sampleUser [samplePeer1, samplePeer2]
    (runActions sampleUser [samplePeer1, samplePeer2]
      [.select ("p1"), .select ("p2")] initialState)
    ⟨[.select ("p1"), .select ("p2")], rfl⟩ ("p1")
    ⟨("p1"), ("PeerOne"), .dm, [], 0,
     [⟨("me"), ("Me")⟩, ⟨("p1"), ("PeerOne")⟩], none, none⟩
    (by decide)
  exact absurd (hx.mp (by decide)) (by decide)

/-- C9 (amended): the record `saveChat` hands to the store drops the message
list and the live `CryptoKey` handle, and carries every other member over
unchanged — including `groupKeyJwk`, the raw exported key material of a group
conversation, which the claim says is not persisted (see the
counterexample). -/
theorem C9_stored_shape (chat : Chat) :
    (storableChat chat).messages = none ∧
    (storableChat chat).groupKey = none ∧
    (storableChat chat).groupKeyJwk = chat.groupKeyJwk ∧
    (storableChat chat).id = chat.id ∧
    (storableChat chat).name = chat.name ∧
    (storableChat chat).type = chat.type ∧
    (storableChat chat).unreadCount = chat.unreadCount ∧
    (storableChat chat).members = chat.members :=
  ⟨rfl, rfl, rfl, rfl, rfl, rfl, rfl, rfl⟩

/-- C9 is refuted for the raw key material: persisting the sample group
conversation keeps its exported symmetric-key JWK in the stored record. -/
theorem C9_group_key_persisted :
    ¬ (∀ chat : Chat, (storableChat chat).messages = none ∧
        (storableChat chat).groupKey = none ∧
        (storableChat chat).groupKeyJwk = none) := by
  intro h
  exact absurd (h sampleGroupChat).2.2 (by decide)

/-- C10: a text message whose target conversation is absent from the
conversation map is dropped: the map is returned entirely unchanged (so no
conversation is created and no unread count changes anywhere) and nothing is
persisted. -/
theorem C10_unknown_target_dropped (active : Option String) (senderId : String)
    (m : TextMessage) (chats : ChatMap)
    (hnone : mget chats (targetChatId senderId m) = none) :
    handleNewMessage active senderId (.text m) chats = (chats, []) :=
  handleNewMessage_noChat active senderId m chats hnone

/-- C10 on the empty conversation map. -/
theorem C10_unknown_target_dropped_witness :
    handleNewMessage none ("alice") (.text sampleMsg) [] = ([], []) :=
  C10_unknown_target_dropped none ("alice") sampleMsg [] (by decide)

end TChat
